import Mathlib

/-!
Verification of the order-ingestion service (WildberriesTechSchool-L0).

Shallow embedding of the Go source: the `model` data types, the bounded FIFO
cache (`internal/service/cache/interface.go`), the order service
(`internal/service/order/order_service.go`), the repository read layer
(`internal/db/repository/migrate.go`), the Kafka consumer loop
(`internal/kafka/consumer.go`), and an interleaving model of the
singleflight-coalesced read path.
-/

namespace WB

/-! ## Data model (package `internal/model`)

Modelled from the spec: the `internal/model` package is not among the
provided sources; the `Order`, `Delivery`, `Payment` and `Item` records are
reconstructed from spec section 3 and from every field access in
`consumer.go` and `migrate.go`.  Go `time.Time` is modelled as a `Nat`
(`IsZero` becomes `= 0`); Go `int` as `Int`; `[]byte` and `string` as
`String`.  Go pointer identity for `*model.Order` is modelled by value
identity of `Order`. -/

structure Delivery where
  Name : String
  Phone : String
  Zip : String
  City : String
  Address : String
  Region : String
  Email : String
deriving DecidableEq, Repr

/-- Go zero value of `model.Delivery`. -/
def Delivery.zero : Delivery := ⟨"", "", "", "", "", "", ""⟩

structure Payment where
  Transaction : String
  RequestID : String
  Currency : String
  Provider : String
  Amount : Int
  PaymentDT : Int
  Bank : String
  DeliveryCost : Int
  GoodsTotal : Int
  CustomFee : Int
deriving DecidableEq, Repr

/-- Go zero value of `model.Payment`. -/
def Payment.zero : Payment := ⟨"", "", "", "", 0, 0, "", 0, 0, 0⟩

structure Item where
  ChrtID : Int
  TrackNumber : String
  Price : Int
  RID : String
  Name : String
  Sale : Int
  Size : String
  TotalPrice : Int
  NmID : Int
  Brand : String
  Status : Int
deriving DecidableEq, Repr

structure Order where
  OrderUID : String
  TrackNumber : String
  Entry : String
  Locale : String
  InternalSignature : String
  CustomerID : String
  DeliveryService : String
  ShardKey : String
  SmID : Int
  DateCreated : Nat
  OofShard : String
  Delivery : Delivery
  Payment : Payment
  Items : List Item
deriving DecidableEq, Repr

/-! ## Bounded FIFO cache (`internal/service/cache/interface.go`, lines 52-129)

The Go `Cache` keeps a `map[string]*list.Element` index plus a
`container/list` ordering list of `entry{key, value}` pairs; the map always
points into the list, so the pair is represented by the single association
list `order` (front = oldest, `PushBack` appends at the back), together with
the capacity `limit`.  Logging is an external observability collaborator and
is not modelled. -/

structure Cache where
  order : List (String × Order)
  limit : Nat
deriving DecidableEq, Repr

/-- Map access `c.data[key]`: the element (if any) whose entry key matches. -/
def lookupKey (key : String) : List (String × Order) → Option Order
  | [] => none
  | e :: es => if e.1 = key then some e.2 else lookupKey key es

/-- `NewCache` (line 77): empty index and order list, `limit: 10`. -/
def Cache.newCache : Cache := { order := [], limit := 10 }

/-- An empty cache with an arbitrary capacity (the tests assign `c.limit`). -/
def Cache.empty (limit : Nat) : Cache := { order := [], limit := limit }

/-- `Cache.Get` (lines 86-99): look the key up in the index and return the
entry's value; the receiver is only read (RLock), so the returned state is
the receiver itself. -/
def Cache.get (c : Cache) (key : String) : Option Order × Cache :=
  match lookupKey key c.order with
  | none => (none, c)
  | some v => (some v, c)

/-- `Cache.Set` (lines 101-129): if the key is present, overwrite the
existing entry's value in place; otherwise, when the order list is at or
above `limit`, remove the front (oldest) element — the `oldest != nil` guard
is the `tail` of an empty list being empty — and push the new entry at the
back.  The Go method always returns `nil`, so no error component is
modelled here. -/
def Cache.set (c : Cache) (key : String) (value : Order) : Cache :=
  if (lookupKey key c.order).isSome then
    { c with order := c.order.map (fun e => if e.1 = key then (e.1, value) else e) }
  else
    let trimmed := if c.order.length ≥ c.limit then c.order.tail else c.order
    { c with order := trimmed ++ [(key, value)] }

/-- The keys of the cache in insertion (FIFO) order. -/
def Cache.keys (c : Cache) : List String := c.order.map Prod.fst

/-- Folding a sequence of `Set` calls over a cache. -/
def Cache.setAll (c : Cache) (ps : List (String × Order)) : Cache :=
  ps.foldl (fun c p => c.set p.1 p.2) c

/-! ### Lookup lemmas -/

theorem lookupKey_eq_none_iff (key : String) (l : List (String × Order)) :
    lookupKey key l = none ↔ key ∉ l.map Prod.fst := by
  induction l with
  | nil => simp [lookupKey]
  | cons e es ih =>
    by_cases h : e.1 = key <;> simp [lookupKey, h, ih, Ne.symm, eq_comm]

theorem lookupKey_isSome_iff (key : String) (l : List (String × Order)) :
    (lookupKey key l).isSome ↔ key ∈ l.map Prod.fst := by
  rw [Option.isSome_iff_ne_none]
  constructor
  · intro h
    by_contra hmem
    exact h ((lookupKey_eq_none_iff key l).mpr hmem)
  · intro h hnone
    exact ((lookupKey_eq_none_iff key l).mp hnone) h

theorem lookupKey_append_of_none (key : String) (l₁ l₂ : List (String × Order))
    (h : lookupKey key l₁ = none) :
    lookupKey key (l₁ ++ l₂) = lookupKey key l₂ := by
  induction l₁ with
  | nil => simp
  | cons e es ih =>
    by_cases he : e.1 = key
    · simp [lookupKey, he] at h
    · simp only [lookupKey, he, if_false, List.cons_append] at h ⊢
      exact ih h

theorem lookupKey_eq_some_of_mem (l : List (String × Order)) (k : String) (v : Order)
    (hnd : (l.map Prod.fst).Nodup) (h : (k, v) ∈ l) :
    lookupKey k l = some v := by
  induction l with
  | nil => cases h
  | cons e es ih =>
    simp only [List.map_cons, List.nodup_cons] at hnd
    rcases List.mem_cons.mp h with h | h
    · subst h; simp [lookupKey]
    · have hk : e.1 ≠ k := by
        intro he
        exact hnd.1 (he ▸ (List.mem_map.mpr ⟨(k, v), h, rfl⟩))
      simp only [lookupKey, hk, if_false]
      exact ih hnd.2 h

theorem lookupKey_sublist_none (key : String) (l₁ l₂ : List (String × Order))
    (hsub : l₁.Sublist l₂) (h : lookupKey key l₂ = none) :
    lookupKey key l₁ = none := by
  rw [lookupKey_eq_none_iff] at h ⊢
  intro hmem
  exact h ((hsub.map Prod.fst).subset hmem)

/-- The value-replacing map of the `Set` update branch keeps every key. -/
theorem keys_map_replace (l : List (String × Order)) (key : String) (v : Order) :
    (l.map (fun e => if e.1 = key then (e.1, v) else e)).map Prod.fst = l.map Prod.fst := by
  induction l with
  | nil => rfl
  | cons e es ih =>
    by_cases h : e.1 = key <;> simp [h, ih]

theorem lookupKey_map_replace_self (l : List (String × Order)) (key : String) (v : Order)
    (h : (lookupKey key l).isSome) :
    lookupKey key (l.map (fun e => if e.1 = key then (e.1, v) else e)) = some v := by
  induction l with
  | nil => simp [lookupKey] at h
  | cons e es ih =>
    by_cases he : e.1 = key
    · simp [List.map_cons, lookupKey, if_pos he, he]
    · simp only [lookupKey, if_neg he] at h
      simp [List.map_cons, lookupKey, if_neg he, ih h, he]

theorem lookupKey_map_replace_other (l : List (String × Order)) (key k : String) (v : Order)
    (h : k ≠ key) :
    lookupKey k (l.map (fun e => if e.1 = key then (e.1, v) else e)) = lookupKey k l := by
  induction l with
  | nil => rfl
  | cons e es ih =>
    by_cases he : e.1 = key
    · have hek : e.1 ≠ k := fun hh => h (hh.symm.trans he)
      simp [List.map_cons, lookupKey, if_pos he, hek, ih]
    · simp [List.map_cons, lookupKey, if_neg he, ih]

/-! ### Basic cache lemmas -/

theorem Cache.get_fst (c : Cache) (k : String) : (c.get k).1 = lookupKey k c.order := by
  unfold Cache.get
  cases lookupKey k c.order <;> rfl

theorem Cache.get_snd (c : Cache) (k : String) : (c.get k).2 = c := by
  unfold Cache.get
  cases lookupKey k c.order <;> rfl

theorem Cache.set_limit (c : Cache) (k : String) (v : Order) : (c.set k v).limit = c.limit := by
  unfold Cache.set
  split <;> rfl

theorem Cache.setAll_limit (c : Cache) (ps : List (String × Order)) :
    (c.setAll ps).limit = c.limit := by
  induction ps generalizing c with
  | nil => rfl
  | cons p ps ih => rw [Cache.setAll, List.foldl_cons, ← Cache.setAll, ih, Cache.set_limit]

theorem Cache.setAll_append (c : Cache) (ps : List (String × Order)) (p : String × Order) :
    c.setAll (ps ++ [p]) = (c.setAll ps).set p.1 p.2 := by
  unfold Cache.setAll
  rw [List.foldl_append, List.foldl_cons, List.foldl_nil]

/-- The core FIFO retention invariant: starting from an empty cache of
capacity `L ≥ 1`, a sequence of `Set` calls with pairwise-distinct keys
leaves exactly the last `L` insertions, in insertion order. -/
theorem setAll_order_eq_dropLast (L : Nat) (hL : 1 ≤ L) (ps : List (String × Order))
    (hnd : (ps.map Prod.fst).Nodup) :
    ((Cache.empty L).setAll ps).order = ps.drop (ps.length - L) := by
  induction ps using List.reverseRecOn with
  | nil => simp [Cache.setAll, Cache.empty]
  | append_singleton ps p ih =>
    have hnd' : ((ps ++ [p]).map Prod.fst).Nodup := hnd
    rw [List.map_append] at hnd'
    have hndps : (ps.map Prod.fst).Nodup := (List.nodup_append.mp hnd').1
    have hpfree : p.1 ∉ ps.map Prod.fst := by
      intro hmem
      have := (List.nodup_append.mp hnd').2.2
      exact this hmem (by simp)
    have hD := ih hndps
    rw [Cache.setAll_append]
    have hlim : ((Cache.empty L).setAll ps).limit = L := by
      rw [Cache.setAll_limit]; rfl
    have habs : lookupKey p.1 ((Cache.empty L).setAll ps).order = none := by
      rw [lookupKey_eq_none_iff, hD]
      intro hmem
      exact hpfree ((List.drop_sublist _ _).map Prod.fst |>.subset hmem)
    have hnotsome : ¬ (lookupKey p.1 ((Cache.empty L).setAll ps).order).isSome := by
      rw [habs]; simp
    rw [Cache.set, if_neg hnotsome, hlim, hD]
    rw [List.length_drop]
    by_cases hlt : ps.length < L
    · have hcond : ¬ (ps.length - (ps.length - L) ≥ L) := by omega
      rw [if_neg hcond, Nat.sub_eq_zero_of_le (Nat.le_of_lt hlt), List.drop_zero,
        List.length_append, List.length_singleton, Nat.sub_eq_zero_of_le hlt, List.drop_zero]
    · have hge : L ≤ ps.length := Nat.le_of_not_lt hlt
      have hcond : ps.length - (ps.length - L) ≥ L := by omega
      rw [if_pos hcond, List.tail_drop, List.length_append, List.length_singleton,
        (by omega : ps.length + 1 - L = (ps.length - L) + 1),
        List.drop_append_of_le_length (by omega)]

/-- C1: for every sequence of `Set` calls with pairwise-distinct keys on an
empty cache of capacity `L ≥ 1`, the cache retains exactly the `L`
most-recently-inserted keys (the `Set` of an absent key at capacity evicts
exactly the oldest entry): `Get` hits exactly the kept suffix with the
stored values and misses every older (evicted) key; the source `NewCache`
fixes the capacity at 10. -/
theorem setAll_fifo_retention (L : Nat) (hL : 1 ≤ L) (ps : List (String × Order))
    (hnd : (ps.map Prod.fst).Nodup) :
    ((Cache.empty L).setAll ps).order = ps.drop (ps.length - L) ∧
    (∀ p ∈ ps.drop (ps.length - L), (((Cache.empty L).setAll ps).get p.1).1 = some p.2) ∧
    (∀ p ∈ ps.take (ps.length - L), (((Cache.empty L).setAll ps).get p.1).1 = none) ∧
    Cache.newCache.limit = 10 := by
  have hD := setAll_order_eq_dropLast L hL ps hnd
  have hsplit : ps.take (ps.length - L) ++ ps.drop (ps.length - L) = ps :=
    List.take_append_drop _ _
  have hndsplit : ((ps.take (ps.length - L)).map Prod.fst ++
      (ps.drop (ps.length - L)).map Prod.fst).Nodup := by
    rw [← List.map_append, hsplit]; exact hnd
  refine ⟨hD, ?_, ?_, rfl⟩
  · intro p hp
    rw [Cache.get_fst, hD]
    exact lookupKey_eq_some_of_mem _ _ _ (List.nodup_append.mp hndsplit).2.1 hp
  · intro p hp
    rw [Cache.get_fst, hD, lookupKey_eq_none_iff]
    intro hmem
    exact (List.nodup_append.mp hndsplit).2.2
      (List.mem_map.mpr ⟨p, hp, rfl⟩) hmem

/-- A sample item for concrete instances. -/
def sampleItem : Item :=
  ⟨9934930, "WBILMTESTTRACK", 453, "ab4219087a764ae0btest", "Mascaras", 30, "0", 317,
    2389212, "Vivienne Sabo", 202⟩

/-- A minimally-complete sample order (all validation rules satisfied). -/
def sampleOrder : Order :=
  { OrderUID := "b563feb7b2b84b6test"
    TrackNumber := "WBILMTESTTRACK"
    Entry := "WBIL"
    Locale := "en"
    InternalSignature := ""
    CustomerID := "test"
    DeliveryService := "meest"
    ShardKey := "9"
    SmID := 99
    DateCreated := 1637907727
    OofShard := "1"
    Delivery := Delivery.zero
    Payment := Payment.zero
    Items := [sampleItem] }

def orderA : Order := { sampleOrder with OrderUID := "A" }
def orderB : Order := { sampleOrder with OrderUID := "B" }
def orderC : Order := { sampleOrder with OrderUID := "C" }

/-- Witness for C1 at the spec's scenario: capacity 2, `Set(A)`, `Set(B)`,
`Set(C)`: `Get(A)` misses while `Get(B)` and `Get(C)` hit with the stored
orders. -/
theorem setAll_fifo_retention_witness :
    (((Cache.empty 2).setAll [("A", orderA), ("B", orderB), ("C", orderC)]).get "A").1 = none ∧
    (((Cache.empty 2).setAll [("A", orderA), ("B", orderB), ("C", orderC)]).get "B").1
      = some orderB ∧
    (((Cache.empty 2).setAll [("A", orderA), ("B", orderB), ("C", orderC)]).get "C").1
      = some orderC := by
  have h := setAll_fifo_retention 2 (by decide) [("A", orderA), ("B", orderB), ("C", orderC)]
    (by decide)
  refine ⟨h.2.2.1 ("A", orderA) ?_, h.2.1 ("B", orderB) ?_, h.2.1 ("C", orderC) ?_⟩
  · simp
  · simp
  · simp

/-- C7: re-`Set`ting a key already present replaces the stored value and
changes nothing else: the key list (hence the size and each key's
insertion-order position) is unchanged, no entry is evicted, and every other
key still maps to its old value. -/
theorem set_present_frame (c : Cache) (key : String) (v : Order) (h : key ∈ c.keys) :
    (c.set key v).keys = c.keys ∧
    (c.set key v).order.length = c.order.length ∧
    ((c.set key v).get key).1 = some v ∧
    (∀ k, k ≠ key → ((c.set key v).get k).1 = (c.get k).1) := by
  have hsome : (lookupKey key c.order).isSome := (lookupKey_isSome_iff key c.order).mpr h
  have hset : (c.set key v).order
      = c.order.map (fun e => if e.1 = key then (e.1, v) else e) := by
    rw [Cache.set, if_pos hsome]
  refine ⟨?_, ?_, ?_, ?_⟩
  · show (c.set key v).order.map Prod.fst = c.order.map Prod.fst
    rw [hset, keys_map_replace]
  · rw [hset, List.length_map]
  · rw [Cache.get_fst, hset, lookupKey_map_replace_self _ _ _ hsome]
  · intro k hk
    rw [Cache.get_fst, Cache.get_fst, hset, lookupKey_map_replace_other _ _ _ _ hk]

/-- Witness for C7 on a concrete two-entry cache. -/
theorem set_present_frame_witness :
    (((Cache.empty 10).setAll [("A", orderA), ("B", orderB)]).set "A" orderC).keys
      = ["A", "B"] ∧
    ((((Cache.empty 10).setAll [("A", orderA), ("B", orderB)]).set "A" orderC).get "A").1
      = some orderC ∧
    ((((Cache.empty 10).setAll [("A", orderA), ("B", orderB)]).set "A" orderC).get "B").1
      = some orderB := by
  have h := set_present_frame ((Cache.empty 10).setAll [("A", orderA), ("B", orderB)])
    "A" orderC (by decide)
  refine ⟨?_, h.2.2.1, ?_⟩
  · rw [h.1]; decide
  · rw [h.2.2.2 "B" (by decide)]; decide

/-- C8: `Get` is effect-free on the cache state (the receiver comes back
unchanged, so no entry's FIFO position moves), returns `none` for an absent
or evicted key, and on a present key returns exactly the value stored by the
last `Set` of that key. -/
theorem get_contract (c : Cache) (key : String) :
    (c.get key).2 = c ∧
    (key ∉ c.keys → (c.get key).1 = none) ∧
    (∀ v, ((c.set key v).get key).1 = some v) := by
  refine ⟨Cache.get_snd c key, ?_, ?_⟩
  · intro habs
    rw [Cache.get_fst, lookupKey_eq_none_iff]
    exact habs
  · intro v
    by_cases hsome : (lookupKey key c.order).isSome
    · rw [Cache.get_fst, Cache.set, if_pos hsome]
      exact lookupKey_map_replace_self _ _ _ hsome
    · rw [Cache.get_fst, Cache.set, if_neg hsome]
      have hnone : lookupKey key c.order = none := by
        cases hc : lookupKey key c.order
        · rfl
        · rw [hc] at hsome; simp at hsome
      have htrim : lookupKey key
          (if c.order.length ≥ c.limit then c.order.tail else c.order) = none := by
        split
        · exact lookupKey_sublist_none _ _ _ (List.tail_sublist _) hnone
        · exact hnone
      show lookupKey key
          ((if c.order.length ≥ c.limit then c.order.tail else c.order) ++ [(key, v)]) = some v
      rw [lookupKey_append_of_none _ _ _ htrim]
      simp [lookupKey]

/-- Witness for C8: miss on an evicted key, unchanged state, and last-`Set`
value returned, at the capacity-2 scenario cache. -/
theorem get_contract_witness :
    (((Cache.empty 2).setAll [("A", orderA), ("B", orderB), ("C", orderC)]).get "A").2
      = (Cache.empty 2).setAll [("A", orderA), ("B", orderB), ("C", orderC)] ∧
    (((Cache.empty 2).setAll [("A", orderA), ("B", orderB), ("C", orderC)]).get "A").1 = none ∧
    ((((Cache.empty 2).setAll [("A", orderA), ("B", orderB), ("C", orderC)]).set "B" orderC).get
      "B").1 = some orderC := by
  have h := get_contract ((Cache.empty 2).setAll [("A", orderA), ("B", orderB), ("C", orderC)])
    "A"
  have h2 := get_contract ((Cache.empty 2).setAll [("A", orderA), ("B", orderB), ("C", orderC)])
    "B"
  exact ⟨h.1, h.2.1 (by decide), h2.2.2 orderC⟩

/-! ## Structural validation (`internal/kafka/consumer.go`, lines 173-222)

`validateOrder` collects the message of every violated rule into `errs` in
program order and, when any rule is violated, returns the single error
`"validation failed: "` followed by the `"; "`-join of all of them.  The
`o == nil` guard is the `none` case of the optional argument. -/

def validateErrs (o : Order) : List String :=
  (if o.OrderUID = "" then ["order_uid is required"] else []) ++
  (if o.TrackNumber = "" then ["track_number is required"] else []) ++
  (if o.Entry = "" then ["entry is required"] else []) ++
  (if o.CustomerID = "" then ["customer_id is required"] else []) ++
  (if o.DeliveryService = "" then ["delivery_service is required"] else []) ++
  (if o.ShardKey = "" then ["shardkey is required"] else []) ++
  (if o.OofShard = "" then ["oof_shard is required"] else []) ++
  (if o.Items = [] then ["items must be non-empty"] else []) ++
  (if o.DateCreated = 0 then ["date_created must be set"] else []) ++
  (if o.SmID < 0 then ["sm_id must be >= 0"] else [])

def validateOrder : Option Order → Option String
  | none => some "order is nil"
  | some o =>
    let errs := validateErrs o
    if errs.isEmpty then none
    else some ("validation failed: " ++ String.intercalate "; " errs)

/-- The spec's validation rules, written independently of the code. -/
def validOrder (o : Order) : Prop :=
  o.OrderUID ≠ "" ∧ o.TrackNumber ≠ "" ∧ o.Entry ≠ "" ∧ o.CustomerID ≠ "" ∧
  o.DeliveryService ≠ "" ∧ o.ShardKey ≠ "" ∧ o.OofShard ≠ "" ∧
  o.Items ≠ [] ∧ o.DateCreated ≠ 0 ∧ 0 ≤ o.SmID

instance (o : Order) : Decidable (validOrder o) := by
  unfold validOrder
  infer_instance

theorem mem_ite_singleton (c : Prop) [Decidable c] (m msg : String) :
    msg ∈ (if c then [m] else ([] : List String)) ↔ msg = m ∧ c := by
  split <;> simp [*]

theorem ite_singleton_eq_nil (c : Prop) [Decidable c] (m : String) :
    (if c then [m] else ([] : List String)) = [] ↔ ¬ c := by
  split <;> simp [*]

/-- C4: `validateOrder` accepts exactly the orders satisfying all ten rules;
on rejection the single returned error is the join of the collected
messages, and the collected messages are precisely those of the violated
rules (every violated rule is reported, nothing else). -/
theorem validateOrder_contract (o : Order) :
    (validateOrder (some o) = none ↔ validOrder o) ∧
    (¬ validOrder o →
      validateOrder (some o)
        = some ("validation failed: " ++ String.intercalate "; " (validateErrs o))) ∧
    (∀ msg, msg ∈ validateErrs o ↔
      ((msg = "order_uid is required" ∧ o.OrderUID = "") ∨
       (msg = "track_number is required" ∧ o.TrackNumber = "") ∨
       (msg = "entry is required" ∧ o.Entry = "") ∨
       (msg = "customer_id is required" ∧ o.CustomerID = "") ∨
       (msg = "delivery_service is required" ∧ o.DeliveryService = "") ∨
       (msg = "shardkey is required" ∧ o.ShardKey = "") ∨
       (msg = "oof_shard is required" ∧ o.OofShard = "") ∨
       (msg = "items must be non-empty" ∧ o.Items = []) ∨
       (msg = "date_created must be set" ∧ o.DateCreated = 0) ∨
       (msg = "sm_id must be >= 0" ∧ o.SmID < 0))) := by
  have hempty : validateErrs o = [] ↔ validOrder o := by
    simp only [validateErrs, List.append_eq_nil, ite_singleton_eq_nil, validOrder,
      Int.not_lt, ne_eq]
    tauto
  refine ⟨?_, ?_, ?_⟩
  · rw [validateOrder]
    constructor
    · intro h
      rw [← hempty]
      by_cases hc : (validateErrs o).isEmpty
      · exact List.isEmpty_iff.mp hc
      · simp only [hc, if_false] at h
        cases h
    · intro h
      have : (validateErrs o).isEmpty := List.isEmpty_iff.mpr (hempty.mpr h)
      simp [this]
  · intro h
    have : ¬ (validateErrs o).isEmpty := by
      rw [List.isEmpty_iff, hempty]
      exact h
    rw [validateOrder]
    simp [this]
  · intro msg
    simp only [validateErrs, List.mem_append, mem_ite_singleton, or_assoc]

/-- Witness for C4: the minimally-complete `sampleOrder` is accepted, and an
order violating several rules has every violated rule collected. -/
theorem validateOrder_contract_witness :
    validateOrder (some sampleOrder) = none ∧
    "order_uid is required" ∈ validateErrs { sampleOrder with OrderUID := "", Items := [] } ∧
    "items must be non-empty" ∈ validateErrs { sampleOrder with OrderUID := "", Items := [] } := by
  refine ⟨(validateOrder_contract sampleOrder).1.mpr (by decide), ?_, ?_⟩
  · exact ((validateOrder_contract _).2.2 _).mpr (Or.inl ⟨rfl, by decide⟩)
  · exact ((validateOrder_contract _).2.2 _).mpr
      (Or.inr (Or.inr (Or.inr (Or.inr (Or.inr (Or.inr (Or.inr (Or.inl ⟨rfl, by decide⟩))))))))

/-! ## Kafka consumer (`internal/kafka/consumer.go`)

External collaborators are modelled as oracles in the environment:
`unmarshal` is `encoding/json.Unmarshal` into `model.Order`, `create` is the
result of `svc.Create`, `dlqWrite` is `dlqWriter.WriteMessages`, `now` is
the `time.Now().UTC().Format(time.RFC3339Nano)` string, and
`dlqTopic = none` models the nil `dlqWriter` (DLQ disabled).  A Kafka
message is its key, payload and header list (`[]byte` as `String`). -/

structure Header where
  key : String
  value : String
deriving DecidableEq, Repr

structure Message where
  key : String
  value : String
  headers : List Header
deriving DecidableEq, Repr

structure ConsumerEnv where
  topic : String
  dlqTopic : Option String
  unmarshal : String → Except String Order
  create : Order → Except String Unit
  dlqWrite : Message → Except String Unit
  now : String

/-- The message constructed by `sendToDLQ` (lines 153-161): the original key
and payload unmodified, and the original headers with the three diagnostic
headers appended. -/
def dlqMessage (env : ConsumerEnv) (src : Message) (errText : String) : Message :=
  { key := src.key
    value := src.value
    headers := src.headers ++
      [⟨"error", errText⟩, ⟨"origin-topic", env.topic⟩, ⟨"timestamp", env.now⟩] }

/-- `errText` of `sendToDLQ` (lines 149-152): the reason, with the cause
appended after `": "` when non-nil. -/
def errTextOf (reason : String) : Option String → String
  | some cause => reason ++ ": " ++ cause
  | none => reason

/-- `Consumer.sendToDLQ` (lines 144-167): nothing is written when the DLQ is
disabled; otherwise the augmented message is written and a write failure is
returned (the caller discards it).  The first component records the message
handed to the DLQ writer, `none` when no write was attempted. -/
def sendToDLQ (env : ConsumerEnv) (src : Message) (reason : String) (cause : Option String) :
    Option Message × Except String Unit :=
  match env.dlqTopic with
  | none => (none, Except.ok ())
  | some _ =>
    let msg := dlqMessage env src (errTextOf reason cause)
    (some msg, env.dlqWrite msg)

/-- Per-message terminal state of the loop body of `Consumer.Run`. -/
inductive Outcome where
  | committed (uid : String)
  | deadLettered (reason : String) (dlq : Option Message)
deriving DecidableEq, Repr

/-- One iteration of the `Consumer.Run` loop body (lines 115-138) applied to
a successfully read message: decode, validate, create, each failure
dead-lettering the original message with the corresponding reason and
continuing. -/
def processMessage (env : ConsumerEnv) (m : Message) : Outcome :=
  match env.unmarshal m.value with
  | Except.error e => Outcome.deadLettered "invalid_json" (sendToDLQ env m "invalid_json" (some e)).1
  | Except.ok o =>
    match validateOrder (some o) with
    | some e =>
      Outcome.deadLettered "schema_validation" (sendToDLQ env m "schema_validation" (some e)).1
    | none =>
      match env.create o with
      | Except.error e =>
        Outcome.deadLettered "business_error" (sendToDLQ env m "business_error" (some e)).1
      | Except.ok _ => Outcome.committed o.OrderUID

/-- `Consumer.Run` (lines 107-140) over a stream of `ReadMessage` results:
each successfully read message is processed and the loop continues; the loop
returns exactly when a read fails, with that error. -/
def run (env : ConsumerEnv) : List (Except String Message) → List Outcome × Option String
  | [] => ([], none)
  | Except.error e :: _ => ([], some e)
  | Except.ok m :: rest =>
    let r := run env rest
    (processMessage env m :: r.1, r.2)

/-- C9: the ingestion loop is failure-proof per message: every message read
before the first read error is processed to a terminal `Outcome` (for any
decode/validate/create/DLQ-write behaviour, since `env` is universally
quantified — a DLQ write failure is swallowed), the loop exits only at a
read error and returns exactly that error, and with the DLQ disabled a
failed message produces no DLQ write at all. -/
theorem run_loop_resilient (env : ConsumerEnv) (ms : List Message) (e : String)
    (rest : List (Except String Message)) :
    run env (ms.map Except.ok ++ Except.error e :: rest)
      = (ms.map (processMessage env), some e) ∧
    run env (ms.map Except.ok) = (ms.map (processMessage env), none) ∧
    (∀ m r c, env.dlqTopic = none → sendToDLQ env m r c = (none, Except.ok ())) := by
  refine ⟨?_, ?_, ?_⟩
  · induction ms with
    | nil => rfl
    | cons m ms ih => simp [run, ih]
  · induction ms with
    | nil => rfl
    | cons m ms ih => simp [run, ih]
  · intro m r c h
    simp [sendToDLQ, h]

/-- Concrete environment on which the decode-failure reason is observable. -/
def envCx : ConsumerEnv :=
  { topic := "orders"
    dlqTopic := some "orders-dlq"
    unmarshal := fun _ => Except.error "unexpected end of JSON input"
    create := fun _ => Except.ok ()
    dlqWrite := fun _ => Except.ok ()
    now := "2026-10-12T00:00:00Z" }

def msgCx : Message := { key := "k1", value := "not-json", headers := [] }

/-- Counterexample to C2 as stated: a message failing JSON decode is
dead-lettered with reason `invalid_json` — not `invalid_payload` as the
claim says — so its `error` header reads `invalid_json: ...`. -/
theorem processMessage_invalid_json_cx :
    processMessage envCx msgCx
      = Outcome.deadLettered "invalid_json"
          (some (dlqMessage envCx msgCx "invalid_json: unexpected end of JSON input")) ∧
    (∀ d, processMessage envCx msgCx ≠ Outcome.deadLettered "invalid_payload" d) := by
  refine ⟨rfl, ?_⟩
  intro d h
  have hr : "invalid_json" = "invalid_payload" := by
    have h' : Outcome.deadLettered "invalid_json"
        (some (dlqMessage envCx msgCx "invalid_json: unexpected end of JSON input"))
          = Outcome.deadLettered "invalid_payload" d := h
    exact (Outcome.deadLettered.injEq _ _ _ _ ▸ h').1
  exact absurd hr (by decide)

/-- C2 as amended: a decode failure dead-letters the message with reason
`invalid_json`, a `Create` failure with reason `business_error`; in both
cases the forwarded message carries the original payload and key unmodified
and the original headers with the appended diagnostics (reason plus
underlying error text, source topic, timestamp). -/
theorem processMessage_dlq_reasons (env : ConsumerEnv) (m : Message) (t : String)
    (hdlq : env.dlqTopic = some t) :
    (∀ e, env.unmarshal m.value = Except.error e →
      processMessage env m
        = Outcome.deadLettered "invalid_json" (some (dlqMessage env m ("invalid_json: " ++ e))) ∧
      (dlqMessage env m ("invalid_json: " ++ e)).key = m.key ∧
      (dlqMessage env m ("invalid_json: " ++ e)).value = m.value ∧
      (dlqMessage env m ("invalid_json: " ++ e)).headers
        = m.headers ++ [⟨"error", "invalid_json: " ++ e⟩, ⟨"origin-topic", env.topic⟩,
            ⟨"timestamp", env.now⟩]) ∧
    (∀ o e, env.unmarshal m.value = Except.ok o → validateOrder (some o) = none →
      env.create o = Except.error e →
      processMessage env m
        = Outcome.deadLettered "business_error"
            (some (dlqMessage env m ("business_error: " ++ e))) ∧
      (dlqMessage env m ("business_error: " ++ e)).key = m.key ∧
      (dlqMessage env m ("business_error: " ++ e)).value = m.value ∧
      (dlqMessage env m ("business_error: " ++ e)).headers
        = m.headers ++ [⟨"error", "business_error: " ++ e⟩, ⟨"origin-topic", env.topic⟩,
            ⟨"timestamp", env.now⟩]) := by
  constructor
  · intro e he
    refine ⟨?_, rfl, rfl, rfl⟩
    simp only [processMessage, he, sendToDLQ, hdlq, errTextOf]
    rfl
  · intro o e ho hv hc
    refine ⟨?_, rfl, rfl, rfl⟩
    simp only [processMessage, ho, hv, hc, sendToDLQ, hdlq, errTextOf]
    rfl

/-- Witness for the amended C2 at a concrete environment and message. -/
theorem processMessage_dlq_reasons_witness :
    processMessage envCx msgCx
      = Outcome.deadLettered "invalid_json"
          (some (dlqMessage envCx msgCx "invalid_json: unexpected end of JSON input")) := by
  exact ((processMessage_dlq_reasons envCx msgCx "orders-dlq" rfl).1
    "unexpected end of JSON input" rfl).1

/-! ## Repository read layer (`internal/db/repository/migrate.go`)

The SQL engine is an external collaborator: each single-row query is an
oracle returning a row, `sql.ErrNoRows`, or an I/O failure, and the
`GetRecent` table scan is an oracle for the whole `orders` table, with
`ORDER BY date_created DESC LIMIT $1` modelled by an insertion sort on
`date_created` (descending) followed by `take`. -/

inductive RepoErr where
  | notFound
  | other (msg : String)
deriving DecidableEq, Repr

inductive DBRes (α : Type) where
  | ok (a : α)
  | noRows
  | fail (msg : String)

/-- A row of the `orders` table: the columns of `qSelOrder` (lines 40-43). -/
structure OrderRow where
  OrderUID : String
  TrackNumber : String
  Entry : String
  Locale : String
  InternalSignature : String
  CustomerID : String
  DeliveryService : String
  ShardKey : String
  SmID : Int
  DateCreated : Nat
  OofShard : String
deriving DecidableEq, Repr

structure DB where
  ordersRow : String → DBRes OrderRow
  deliveriesRow : String → DBRes Delivery
  paymentsRow : String → DBRes Payment
  itemsRows : String → Except String (List Item)
  ordersScan : Except String (List OrderRow)

/-- Scanning an `orders` row into a fresh `var ord model.Order`: the
embedded `Delivery`, `Payment` and `Items` stay at their Go zero values. -/
def rowToOrder (r : OrderRow) : Order :=
  { OrderUID := r.OrderUID
    TrackNumber := r.TrackNumber
    Entry := r.Entry
    Locale := r.Locale
    InternalSignature := r.InternalSignature
    CustomerID := r.CustomerID
    DeliveryService := r.DeliveryService
    ShardKey := r.ShardKey
    SmID := r.SmID
    DateCreated := r.DateCreated
    OofShard := r.OofShard
    Delivery := Delivery.zero
    Payment := Payment.zero
    Items := [] }

/-- `OrderRepository.GetOrder` (lines 61-121): no `orders` row becomes
`ErrNotFound`; an I/O failure on any query is wrapped and surfaced; a
missing `deliveries` or `payments` row is ignored (fields stay zero). -/
def repoGetOrder (db : DB) (id : String) : Except RepoErr Order :=
  match db.ordersRow id with
  | DBRes.noRows => Except.error RepoErr.notFound
  | DBRes.fail m => Except.error (RepoErr.other ("select orders: " ++ m))
  | DBRes.ok row =>
    match db.deliveriesRow id with
    | DBRes.fail m => Except.error (RepoErr.other ("select deliveries: " ++ m))
    | dres =>
      match db.paymentsRow id with
      | DBRes.fail m => Except.error (RepoErr.other ("select payments: " ++ m))
      | pres =>
        match db.itemsRows id with
        | Except.error m => Except.error (RepoErr.other ("select items: " ++ m))
        | Except.ok items =>
          Except.ok { rowToOrder row with
            Delivery := match dres with | DBRes.ok d => d | _ => Delivery.zero
            Payment := match pres with | DBRes.ok p => p | _ => Payment.zero
            Items := items }

def insertByDateDesc (r : OrderRow) : List OrderRow → List OrderRow
  | [] => [r]
  | x :: xs => if x.DateCreated ≤ r.DateCreated then r :: x :: xs else x :: insertByDateDesc r xs

/-- Model of `ORDER BY date_created DESC`. -/
def sortByDateDesc (rows : List OrderRow) : List OrderRow :=
  rows.foldr insertByDateDesc []

/-- `OrderRepository.GetRecent` (lines 222-259): the `limit` most recent
`orders` rows by descending creation time, scanned with only the `orders`
columns. -/
def repoGetRecent (db : DB) (limit : Nat) : Except RepoErr (List Order) :=
  match db.ordersScan with
  | Except.error m => Except.error (RepoErr.other ("select recent orders: " ++ m))
  | Except.ok rows => Except.ok (((sortByDateDesc rows).take limit).map rowToOrder)

/-! ## Order service (`internal/service/order/order_service.go`)

`serviceGet` is the single-caller execution of `orderService.Get`: the
singleflight `Do` runs its callback synchronously for the (only) leader, so
the outer cache check, the in-flight re-check, the backing fetch and the
`Set` happen in program order.  (The interleaved N-caller semantics is the
`SF` model further below.)  `UpdateCache` is written against the
`cache.InterfaceCache` contract, whose `Set` may fail, so it is parametrised
by an `ICache`. -/

structure ICache (σ : Type) where
  set : σ → String → Order → Except RepoErr Unit × σ

/-- The concrete FIFO cache as an `InterfaceCache`: its `Set` always
returns `nil`. -/
def icacheOfCache : ICache Cache :=
  { set := fun c k v => (Except.ok (), c.set k v) }

/-- `orderService.Get` (lines 25-47), single caller: on a hit return the
cached order; on a miss re-check the cache, fetch from the repository,
surface its error unchanged, otherwise `Set` the fetched order (the `Set`
error is discarded) and return it. -/
def serviceGet (fetch : String → Except RepoErr Order) (c : Cache) (id : String) :
    Except RepoErr Order × Cache :=
  match (c.get id).1 with
  | some o => (Except.ok o, c)
  | none =>
    match (c.get id).1 with
    | some o => (Except.ok o, c)
    | none =>
      match fetch id with
      | Except.error e => (Except.error e, c)
      | Except.ok o => (Except.ok o, c.set id o)

/-- The `for _, order := range orders` loop of `UpdateCache` (lines 58-63):
`Set` each order under its `OrderUID`, returning the first `Set` error. -/
def setLoop {σ : Type} (ic : ICache σ) : List Order → σ → Except RepoErr Unit × σ
  | [], s => (Except.ok (), s)
  | o :: os, s =>
    match ic.set s o.OrderUID o with
    | (Except.ok _, s') => setLoop ic os s'
    | (Except.error e, s') => (Except.error e, s')

theorem setLoop_cons {σ : Type} (ic : ICache σ) (o : Order) (os : List Order) (s : σ) :
    setLoop ic (o :: os) s
      = match ic.set s o.OrderUID o with
        | (Except.ok _, s') => setLoop ic os s'
        | (Except.error e, s') => (Except.error e, s') := rfl

/-- `orderService.UpdateCache` (lines 53-65): fetch the 10 most recent
orders and `Set` each into the cache. -/
def serviceUpdateCache {σ : Type} (ic : ICache σ) (db : DB) (s : σ) :
    Except RepoErr Unit × σ :=
  match repoGetRecent db 10 with
  | Except.error e => (Except.error e, s)
  | Except.ok orders => setLoop ic orders s

/-- C5: on a cache miss, `Get` returns `NotFound` exactly when the backing
store has no `orders` row for the id, surfaces every other backing error
unchanged, and in every error case leaves the cache untouched (a `NotFound`
is never cached negatively). -/
theorem serviceGet_error_path (db : DB) (c : Cache) (id : String)
    (hmiss : (c.get id).1 = none) :
    (db.ordersRow id = DBRes.noRows →
      serviceGet (repoGetOrder db) c id = (Except.error RepoErr.notFound, c)) ∧
    (∀ e, repoGetOrder db id = Except.error e →
      serviceGet (repoGetOrder db) c id = (Except.error e, c)) := by
  constructor
  · intro h
    have hfetch : repoGetOrder db id = Except.error RepoErr.notFound := by
      rw [repoGetOrder, h]
    simp only [serviceGet, hmiss, hfetch]
  · intro e hfetch
    simp only [serviceGet, hmiss, hfetch]

/-- Empty backing store: every per-id query returns no rows. -/
def dbEmpty : DB :=
  { ordersRow := fun _ => DBRes.noRows
    deliveriesRow := fun _ => DBRes.noRows
    paymentsRow := fun _ => DBRes.noRows
    itemsRows := fun _ => Except.ok []
    ordersScan := Except.ok [] }

/-- Witness for C5 at the spec's scenario: `Get("missing-id")` against an
empty cache and an empty store yields `NotFound` and zero cache mutation. -/
theorem serviceGet_error_path_witness :
    serviceGet (repoGetOrder dbEmpty) (Cache.empty 10) "missing-id"
      = (Except.error RepoErr.notFound, Cache.empty 10) :=
  (serviceGet_error_path dbEmpty (Cache.empty 10) "missing-id" rfl).1 rfl

/-- C6: `UpdateCache` fetches the 10 most recent orders (descending creation
time) and `Set`s each under its identifier: a fetch failure is returned with
no `Set` performed; when the fetch succeeds the loop `Set`s the orders in
sequence, a failing `Set` returns that first error and aborts the remaining
`Set`s, and an all-successful loop applies exactly the `Set`s in order. -/
theorem updateCache_contract {σ : Type} (ic : ICache σ) (db : DB) (s : σ) :
    (∀ m, db.ordersScan = Except.error m →
      serviceUpdateCache ic db s
        = (Except.error (RepoErr.other ("select recent orders: " ++ m)), s)) ∧
    (∀ rows, db.ordersScan = Except.ok rows →
      serviceUpdateCache ic db s
        = setLoop ic (((sortByDateDesc rows).take 10).map rowToOrder) s) ∧
    (∀ pre (o : Order) post s' e s'',
      setLoop ic pre s = (Except.ok (), s') →
      ic.set s' o.OrderUID o = (Except.error e, s'') →
      setLoop ic (pre ++ o :: post) s = (Except.error e, s'')) ∧
    (∀ os s', setLoop ic os s = (Except.ok (), s') →
      s' = os.foldl (fun t o => (ic.set t o.OrderUID o).2) s) := by
  refine ⟨?_, ?_, ?_, ?_⟩
  · intro m h
    simp only [serviceUpdateCache, repoGetRecent, h]
  · intro rows h
    simp only [serviceUpdateCache, repoGetRecent, h]
  · intro pre
    induction pre generalizing s with
    | nil =>
      intro o post s' e s'' hok hfail
      have hs : s = s' := congrArg Prod.snd hok
      subst hs
      rw [List.nil_append, setLoop_cons, hfail]
    | cons p pre ih =>
      intro o post s' e s'' hok hfail
      rw [setLoop_cons] at hok
      rw [List.cons_append, setLoop_cons]
      cases hset : ic.set s p.OrderUID p with
      | mk r t =>
        rw [hset] at hok
        cases r with
        | ok u => exact ih t o post s' e s'' hok hfail
        | error e' =>
          have hfst : (Except.error e' : Except RepoErr Unit) = Except.ok () :=
            congrArg Prod.fst hok
          cases hfst
  · intro os
    induction os generalizing s with
    | nil =>
      intro s' h
      have hs : s = s' := congrArg Prod.snd h
      subst hs
      rfl
    | cons o os ih =>
      intro s' h
      rw [setLoop_cons] at h
      rw [List.foldl_cons]
      cases hset : ic.set s o.OrderUID o with
      | mk r t =>
        rw [hset] at h
        cases r with
        | ok u => rw [ih t s' h]
        | error e' =>
          have hfst : (Except.error e' : Except RepoErr Unit) = Except.ok () :=
            congrArg Prod.fst h
          cases hfst

/-- Two-order backing store for the C6 scenario. -/
def rowOne : OrderRow :=
  ⟨"id-1", "TRK1", "WBIL", "en", "", "c1", "meest", "9", 1, 100, "1"⟩

def rowTwo : OrderRow :=
  ⟨"id-2", "TRK2", "WBIL", "en", "", "c2", "meest", "9", 1, 200, "1"⟩

def dbTwo : DB :=
  { dbEmpty with ordersScan := Except.ok [rowOne, rowTwo] }

/-- Witness for C6: a store returning 2 recent orders primes exactly those 2
keys (newest first) into an empty cache, with no error. -/
theorem updateCache_contract_witness :
    serviceUpdateCache icacheOfCache dbTwo (Cache.empty 10)
      = (Except.ok (), (Cache.empty 10).setAll
          [("id-2", rowToOrder rowTwo), ("id-1", rowToOrder rowOne)]) ∧
    ((serviceUpdateCache icacheOfCache dbTwo (Cache.empty 10)).2).keys = ["id-2", "id-1"] := by
  have h := (updateCache_contract icacheOfCache dbTwo (Cache.empty 10)).2.1 [rowOne, rowTwo] rfl
  constructor
  · rw [h]; rfl
  · rw [h]; rfl

/-- C10: every order delivered by `GetRecent` — hence every order primed by
`UpdateCache` — carries only the `orders`-table columns: its item list is
empty and its delivery and payment records are zero-valued; and a later
cache hit on such a key returns that incomplete order as-is, without
consulting the backing store. -/
theorem getRecent_primes_incomplete (db : DB) (limit : Nat) (l : List Order)
    (h : repoGetRecent db limit = Except.ok l) :
    (∀ o ∈ l, o.Items = [] ∧ o.Delivery = Delivery.zero ∧ o.Payment = Payment.zero) ∧
    (∀ (c : Cache) (k : String) (o : Order) (fetch : String → Except RepoErr Order),
      (c.get k).1 = some o → serviceGet fetch c k = (Except.ok o, c)) := by
  constructor
  · intro o hmem
    cases hscan : db.ordersScan with
    | error m => rw [repoGetRecent, hscan] at h; cases h
    | ok rows =>
      rw [repoGetRecent, hscan] at h
      cases h
      obtain ⟨r, _, rfl⟩ := List.mem_map.mp hmem
      exact ⟨rfl, rfl, rfl⟩
  · intro c k o fetch hhit
    simp only [serviceGet, hhit]

/-- Full-record backing store: the `orders` row of `full-1` has a matching
item, so a miss fetch returns the items while the primed entry does not. -/
def rowFull : OrderRow :=
  ⟨"full-1", "WBILMTESTTRACK", "WBIL", "en", "", "test", "meest", "9", 99, 1637907727, "1"⟩

def dbFull : DB :=
  { ordersRow := fun id => if id = "full-1" then DBRes.ok rowFull else DBRes.noRows
    deliveriesRow := fun _ => DBRes.noRows
    paymentsRow := fun _ => DBRes.noRows
    itemsRows := fun id => Except.ok (if id = "full-1" then [sampleItem] else [])
    ordersScan := Except.ok [rowFull] }

/-- Witness for C10: priming from `dbFull` caches `full-1` without items,
a subsequent `Get` hit returns that incomplete order, and it differs from
the full record a cache-miss fetch would return. -/
theorem getRecent_primes_incomplete_witness :
    (rowToOrder rowFull).Items = [] ∧
    serviceGet (repoGetOrder dbFull)
        ((serviceUpdateCache icacheOfCache dbFull (Cache.empty 10)).2) "full-1"
      = (Except.ok (rowToOrder rowFull),
        (serviceUpdateCache icacheOfCache dbFull (Cache.empty 10)).2) ∧
    repoGetOrder dbFull "full-1" = Except.ok { rowToOrder rowFull with Items := [sampleItem] } ∧
    (rowToOrder rowFull) ≠ { rowToOrder rowFull with Items := [sampleItem] } := by
  have h := getRecent_primes_incomplete dbFull 10 [rowToOrder rowFull] rfl
  refine ⟨(h.1 (rowToOrder rowFull) (by simp)).1, ?_, rfl, by decide⟩
  exact h.2 _ "full-1" (rowToOrder rowFull) (repoGetOrder dbFull) rfl

/-! ## Interleaved singleflight model (`orderService.Get`, lines 25-47)

N concurrent callers of `Get(ctx, id)` for one identifier `id`, modelled as
a small-step machine.  Each caller walks the program: outer cache read
(line 26), `group.Do` entry (line 29) — the first caller with no flight in
progress becomes the leader, any caller entering while a leader exists
joins the flight as a follower — the leader's in-flight cache re-check
(line 30), the backing fetch `repo.GetOrder` (line 34, deterministic result
`r`), the `cache.Set` on success (line 39), and the `Do` return, which
hands the result to the leader and every follower and closes the flight
(singleflight's broadcast; joining stays possible until then).  `cache` is
the cache's entry for `id` as this id's callers read and write it, and
`fetches` counts the backing-store calls issued for `id`; the machine
covers the N callers of the one identifier of the claim's hypothesis.  The
composite of two identifiers over the one shared bounded cache — whose
`Set` for one id may evict the other id's entry — is `SF2State`/`SF2Step`
below. -/

instance {ε α : Type} [DecidableEq ε] [DecidableEq α] : DecidableEq (Except ε α)
  | Except.ok a, Except.ok b => decidable_of_iff (a = b) (by simp)
  | Except.error a, Except.error b => decidable_of_iff (a = b) (by simp)
  | Except.ok _, Except.error _ => isFalse (fun h => Except.noConfusion h)
  | Except.error _, Except.ok _ => isFalse (fun h => Except.noConfusion h)

inductive Phase where
  | start
  | waitDo
  | leaderInner
  | leaderFetch
  | leaderSet (o : Order)
  | leaderPublish (res : Except RepoErr Order)
  | follower
  | finished (res : Except RepoErr Order)
deriving DecidableEq, Repr

def Phase.isLeader : Phase → Bool
  | .leaderInner => true
  | .leaderFetch => true
  | .leaderSet _ => true
  | .leaderPublish _ => true
  | _ => false

def Phase.isFin : Phase → Bool
  | .finished _ => true
  | _ => false

structure SFState (n : Nat) where
  cache : Option Order
  phases : Fin n → Phase
  fetches : Nat

instance {n : Nat} : DecidableEq (SFState n) := fun a b =>
  decidable_of_iff (a.cache = b.cache ∧ a.phases = b.phases ∧ a.fetches = b.fetches) (by
    constructor
    · rintro ⟨h1, h2, h3⟩
      cases a
      cases b
      simp_all
    · rintro rfl
      exact ⟨rfl, rfl, rfl⟩)

inductive SFAct (n : Nat) where
  | check (i : Fin n)
  | enter (i : Fin n)
  | inner (i : Fin n)
  | fetch (i : Fin n)
  | setC (i : Fin n)
  | publish (i : Fin n)
deriving DecidableEq, Repr

/-- One interleaving step: the scheduled caller `i` executes its next
program point; `none` when that caller has no such step. -/
def SFStep {n : Nat} (r : Except RepoErr Order) (s : SFState n) : SFAct n → Option (SFState n)
  | SFAct.check i =>
    match s.phases i with
    | Phase.start =>
      match s.cache with
      | some o => some { s with phases := Function.update s.phases i (Phase.finished (Except.ok o)) }
      | none => some { s with phases := Function.update s.phases i Phase.waitDo }
    | _ => none
  | SFAct.enter i =>
    match s.phases i with
    | Phase.waitDo =>
      if ∃ j, (s.phases j).isLeader = true then
        some { s with phases := Function.update s.phases i Phase.follower }
      else
        some { s with phases := Function.update s.phases i Phase.leaderInner }
    | _ => none
  | SFAct.inner i =>
    match s.phases i with
    | Phase.leaderInner =>
      match s.cache with
      | some o =>
        some { s with phases := Function.update s.phases i (Phase.leaderPublish (Except.ok o)) }
      | none => some { s with phases := Function.update s.phases i Phase.leaderFetch }
    | _ => none
  | SFAct.fetch i =>
    match s.phases i with
    | Phase.leaderFetch =>
      match r with
      | Except.ok o =>
        some { s with phases := Function.update s.phases i (Phase.leaderSet o)
                      fetches := s.fetches + 1 }
      | Except.error e =>
        some { s with phases := Function.update s.phases i (Phase.leaderPublish (Except.error e))
                      fetches := s.fetches + 1 }
    | _ => none
  | SFAct.setC i =>
    match s.phases i with
    | Phase.leaderSet o =>
      some { s with cache := some o
                    phases := Function.update s.phases i (Phase.leaderPublish (Except.ok o)) }
    | _ => none
  | SFAct.publish i =>
    match s.phases i with
    | Phase.leaderPublish res =>
      some { s with phases := fun j =>
        if j = i ∨ s.phases j = Phase.follower then Phase.finished res else s.phases j }
    | _ => none

/-- All callers about to issue their `Get`, cold cache, no fetch issued. -/
def SFInit (n : Nat) : SFState n :=
  { cache := none, phases := fun _ => Phase.start, fetches := 0 }

def sfRun {n : Nat} (r : Except RepoErr Order) (s : SFState n) :
    List (SFAct n) → Option (SFState n)
  | [] => some s
  | a :: as =>
    match SFStep r s a with
    | none => none
    | some s' => sfRun r s' as

/-- Schedule side conditions of the claim, checked along the run:
every outer cache check happens while the entry is absent (all N callers
miss), and every flight publication happens once no caller is still before
or inside its `Do` entry (the N misses are simultaneous: all callers join
the flight before its result is published). -/
def actGuard {n : Nat} (s : SFState n) : SFAct n → Bool
  | SFAct.check _ => decide (s.cache = none)
  | SFAct.publish _ =>
    decide (∀ j, s.phases j ≠ Phase.start ∧ s.phases j ≠ Phase.waitDo)
  | _ => true

def goodSched {n : Nat} (r : Except RepoErr Order) (s : SFState n) :
    List (SFAct n) → Bool
  | [] => true
  | a :: as =>
    actGuard s a &&
    (match SFStep r s a with
     | none => true
     | some s' => goodSched r s' as)

/-- The `Get` machines of two distinct identifiers over the program's one
shared bounded cache.  The singleflight group is keyed by the identifier,
so each id has its own flight (its callers' phases and its fetch counter),
but `cache` is the single FIFO `Cache` of `interface.go`, read and written
under the respective id key — in particular the leader's `Set` for one id
at capacity may evict the other id's entry. -/
structure SF2State (n₁ n₂ : Nat) where
  cache : Cache
  phases1 : Fin n₁ → Phase
  phases2 : Fin n₂ → Phase
  fetches1 : Nat
  fetches2 : Nat

/-- One interleaving step of the two-identifier composite: `Sum.inl`
schedules a caller of `id₁`, `Sum.inr` a caller of `id₂`; each side is the
program of `orderService.Get` for its id against the shared cache. -/
def SF2Step {n₁ n₂ : Nat} (id₁ id₂ : String) (r₁ r₂ : Except RepoErr Order)
    (s : SF2State n₁ n₂) : Sum (SFAct n₁) (SFAct n₂) → Option (SF2State n₁ n₂)
  | Sum.inl (SFAct.check i) =>
    match s.phases1 i with
    | Phase.start =>
      match (s.cache.get id₁).1 with
      | some o =>
        some { s with phases1 := Function.update s.phases1 i (Phase.finished (Except.ok o)) }
      | none => some { s with phases1 := Function.update s.phases1 i Phase.waitDo }
    | _ => none
  | Sum.inl (SFAct.enter i) =>
    match s.phases1 i with
    | Phase.waitDo =>
      if ∃ j, (s.phases1 j).isLeader = true then
        some { s with phases1 := Function.update s.phases1 i Phase.follower }
      else
        some { s with phases1 := Function.update s.phases1 i Phase.leaderInner }
    | _ => none
  | Sum.inl (SFAct.inner i) =>
    match s.phases1 i with
    | Phase.leaderInner =>
      match (s.cache.get id₁).1 with
      | some o =>
        some { s with
          phases1 := Function.update s.phases1 i (Phase.leaderPublish (Except.ok o)) }
      | none => some { s with phases1 := Function.update s.phases1 i Phase.leaderFetch }
    | _ => none
  | Sum.inl (SFAct.fetch i) =>
    match s.phases1 i with
    | Phase.leaderFetch =>
      match r₁ with
      | Except.ok o =>
        some { s with phases1 := Function.update s.phases1 i (Phase.leaderSet o)
                      fetches1 := s.fetches1 + 1 }
      | Except.error e =>
        some { s with
          phases1 := Function.update s.phases1 i (Phase.leaderPublish (Except.error e))
          fetches1 := s.fetches1 + 1 }
    | _ => none
  | Sum.inl (SFAct.setC i) =>
    match s.phases1 i with
    | Phase.leaderSet o =>
      some { s with cache := s.cache.set id₁ o
                    phases1 := Function.update s.phases1 i (Phase.leaderPublish (Except.ok o)) }
    | _ => none
  | Sum.inl (SFAct.publish i) =>
    match s.phases1 i with
    | Phase.leaderPublish res =>
      some { s with phases1 := fun j =>
        if j = i ∨ s.phases1 j = Phase.follower then Phase.finished res else s.phases1 j }
    | _ => none
  | Sum.inr (SFAct.check i) =>
    match s.phases2 i with
    | Phase.start =>
      match (s.cache.get id₂).1 with
      | some o =>
        some { s with phases2 := Function.update s.phases2 i (Phase.finished (Except.ok o)) }
      | none => some { s with phases2 := Function.update s.phases2 i Phase.waitDo }
    | _ => none
  | Sum.inr (SFAct.enter i) =>
    match s.phases2 i with
    | Phase.waitDo =>
      if ∃ j, (s.phases2 j).isLeader = true then
        some { s with phases2 := Function.update s.phases2 i Phase.follower }
      else
        some { s with phases2 := Function.update s.phases2 i Phase.leaderInner }
    | _ => none
  | Sum.inr (SFAct.inner i) =>
    match s.phases2 i with
    | Phase.leaderInner =>
      match (s.cache.get id₂).1 with
      | some o =>
        some { s with
          phases2 := Function.update s.phases2 i (Phase.leaderPublish (Except.ok o)) }
      | none => some { s with phases2 := Function.update s.phases2 i Phase.leaderFetch }
    | _ => none
  | Sum.inr (SFAct.fetch i) =>
    match s.phases2 i with
    | Phase.leaderFetch =>
      match r₂ with
      | Except.ok o =>
        some { s with phases2 := Function.update s.phases2 i (Phase.leaderSet o)
                      fetches2 := s.fetches2 + 1 }
      | Except.error e =>
        some { s with
          phases2 := Function.update s.phases2 i (Phase.leaderPublish (Except.error e))
          fetches2 := s.fetches2 + 1 }
    | _ => none
  | Sum.inr (SFAct.setC i) =>
    match s.phases2 i with
    | Phase.leaderSet o =>
      some { s with cache := s.cache.set id₂ o
                    phases2 := Function.update s.phases2 i (Phase.leaderPublish (Except.ok o)) }
    | _ => none
  | Sum.inr (SFAct.publish i) =>
    match s.phases2 i with
    | Phase.leaderPublish res =>
      some { s with phases2 := fun j =>
        if j = i ∨ s.phases2 j = Phase.follower then Phase.finished res else s.phases2 j }
    | _ => none

/-! ### Invariants of the singleflight machine -/

/-- At most one caller is inside the `Do` callback at a time. -/
def OneLeader {n : Nat} (s : SFState n) : Prop :=
  ∀ i j, (s.phases i).isLeader = true → (s.phases j).isLeader = true → i = j

/-- Every result that circulates equals the deterministic repo result. -/
def ResInv {n : Nat} (r : Except RepoErr Order) (s : SFState n) : Prop :=
  (∀ o, s.cache = some o → r = Except.ok o) ∧
  (∀ i o, s.phases i = Phase.leaderSet o → r = Except.ok o) ∧
  (∀ i res, s.phases i = Phase.leaderPublish res → res = r) ∧
  (∀ i res, s.phases i = Phase.finished res → res = r)

/-- Shape of the state before the flight publishes: nobody has finished,
and the fetch counter and cache entry are determined by how far the (at
most one) leader has progressed. -/
def PreFlight {n : Nat} (s : SFState n) : Prop :=
  (∀ i, (s.phases i).isFin = false) ∧
  ((∀ i, (s.phases i).isLeader = false) → s.fetches = 0 ∧ s.cache = none) ∧
  (∀ i, s.phases i = Phase.leaderInner ∨ s.phases i = Phase.leaderFetch →
    s.fetches = 0 ∧ s.cache = none) ∧
  (∀ i o, s.phases i = Phase.leaderSet o → s.fetches = 1 ∧ s.cache = none) ∧
  (∀ i res, s.phases i = Phase.leaderPublish res → s.fetches = 1 ∧
    (∀ o, res = Except.ok o → s.cache = some o) ∧
    (∀ e, res = Except.error e → s.cache = none))

/-- Shape of the state after the flight has published: everyone finished,
exactly one fetch was issued, and the cache was populated iff the fetch
succeeded. -/
def PostFlight {n : Nat} (r : Except RepoErr Order) (s : SFState n) : Prop :=
  (∀ i, (s.phases i).isFin = true) ∧ s.fetches = 1 ∧
  (∀ o, r = Except.ok o → s.cache = some o) ∧
  (∀ e, r = Except.error e → s.cache = none)

def SFInv {n : Nat} (r : Except RepoErr Order) (s : SFState n) : Prop :=
  OneLeader s ∧ ResInv r s ∧ (PreFlight s ∨ PostFlight r s)

theorem sfstep_none_of_fin {n : Nat} (r : Except RepoErr Order) (s : SFState n) (a : SFAct n)
    (hfin : ∀ i, (s.phases i).isFin = true) : SFStep r s a = none := by
  cases a with
  | check i =>
    have hf := hfin i
    cases hp : s.phases i <;> rw [hp] at hf <;> simp [SFStep, hp, Phase.isFin] at hf ⊢
  | enter i =>
    have hf := hfin i
    cases hp : s.phases i <;> rw [hp] at hf <;> simp [SFStep, hp, Phase.isFin] at hf ⊢
  | inner i =>
    have hf := hfin i
    cases hp : s.phases i <;> rw [hp] at hf <;> simp [SFStep, hp, Phase.isFin] at hf ⊢
  | fetch i =>
    have hf := hfin i
    cases hp : s.phases i <;> rw [hp] at hf <;> simp [SFStep, hp, Phase.isFin] at hf ⊢
  | setC i =>
    have hf := hfin i
    cases hp : s.phases i <;> rw [hp] at hf <;> simp [SFStep, hp, Phase.isFin] at hf ⊢
  | publish i =>
    have hf := hfin i
    cases hp : s.phases i <;> rw [hp] at hf <;> simp [SFStep, hp, Phase.isFin] at hf ⊢

theorem oneLeader_update_of_leader {n : Nat} (s t : SFState n) (i : Fin n) (p : Phase)
    (ht : t.phases = Function.update s.phases i p)
    (hOne : OneLeader s) (hiL : (s.phases i).isLeader = true) : OneLeader t := by
  intro j k hj hk
  rw [ht] at hj hk
  by_cases hji : j = i
  · by_cases hki : k = i
    · rw [hji, hki]
    · rw [Function.update_noteq hki] at hk
      exact absurd (hOne k i hk hiL) hki
  · rw [Function.update_noteq hji] at hj
    exact absurd (hOne j i hj hiL) hji

theorem no_other_leader {n : Nat} (s : SFState n) (i j : Fin n) (hOne : OneLeader s)
    (hiL : (s.phases i).isLeader = true) (hji : j ≠ i) :
    (s.phases j).isLeader = false := by
  cases h : (s.phases j).isLeader
  · rfl
  · exact absurd (hOne j i h hiL) hji

/-- A non-leader caller moving to a passive (non-leader, non-finished)
phase preserves the whole invariant. -/
theorem sfInv_update_passive {n : Nat} (r : Except RepoErr Order) (s : SFState n) (i : Fin n)
    (p : Phase)
    (hOne : OneLeader s) (hRes : ResInv r s) (hPre : PreFlight s)
    (hpL : p.isLeader = false) (hpF : p.isFin = false)
    (hpSet : ∀ o, p ≠ Phase.leaderSet o) (hpPub : ∀ res, p ≠ Phase.leaderPublish res)
    (hpInner : p ≠ Phase.leaderInner) (hpFetch : p ≠ Phase.leaderFetch)
    (hpFin : ∀ res, p ≠ Phase.finished res)
    (hiL : (s.phases i).isLeader = false) :
    SFInv r { s with phases := Function.update s.phases i p } := by
  obtain ⟨hResC, hResS, hResP, hResF⟩ := hRes
  obtain ⟨hFin, hNoL, hLIF, hLSet, hLPub⟩ := hPre
  refine ⟨?_, ⟨hResC, ?_, ?_, ?_⟩, Or.inl ⟨?_, ?_, ?_, ?_, ?_⟩⟩
  · intro j k hj hk
    simp only [Function.update_apply] at hj hk
    split at hj
    · rw [hpL] at hj
      exact Bool.noConfusion hj
    · split at hk
      · rw [hpL] at hk
        exact Bool.noConfusion hk
      · exact hOne j k hj hk
  · intro j o hj
    simp only [Function.update_apply] at hj
    split at hj
    · exact absurd hj (hpSet o)
    · exact hResS j o hj
  · intro j res hj
    simp only [Function.update_apply] at hj
    split at hj
    · exact absurd hj (hpPub res)
    · exact hResP j res hj
  · intro j res hj
    simp only [Function.update_apply] at hj
    split at hj
    · exact absurd hj (hpFin res)
    · exact hResF j res hj
  · intro j
    simp only [Function.update_apply]
    split
    · exact hpF
    · exact hFin j
  · intro h
    refine hNoL ?_
    intro j
    by_cases hji : j = i
    · rw [hji]
      exact hiL
    · have := h j
      simp only [Function.update_apply, if_neg hji] at this
      exact this
  · intro j hj
    simp only [Function.update_apply] at hj
    split at hj
    · rcases hj with hj | hj
      · exact absurd hj hpInner
      · exact absurd hj hpFetch
    · exact hLIF j hj
  · intro j o hj
    simp only [Function.update_apply] at hj
    split at hj
    · exact absurd hj (hpSet o)
    · exact hLSet j o hj
  · intro j res hj
    simp only [Function.update_apply] at hj
    split at hj
    · exact absurd hj (hpPub res)
    · exact hLPub j res hj

theorem sfInv_check {n : Nat} (r : Except RepoErr Order) (s s' : SFState n) (i : Fin n)
    (hstep : SFStep r s (SFAct.check i) = some s') (hc : s.cache = none)
    (hOne : OneLeader s) (hRes : ResInv r s) (hPre : PreFlight s) : SFInv r s' := by
  cases hp : s.phases i <;> simp only [SFStep, hp, hc] at hstep <;>
    try exact Option.noConfusion hstep
  injection hstep with hs'
  subst hs'
  have h' := sfInv_update_passive r s i Phase.waitDo hOne hRes hPre rfl rfl
    (fun o h => Phase.noConfusion h) (fun res h => Phase.noConfusion h)
    (fun h => Phase.noConfusion h) (fun h => Phase.noConfusion h)
    (fun res h => Phase.noConfusion h) (by rw [hp]; rfl)
  rwa [hc] at h'

theorem sfInv_enter {n : Nat} (r : Except RepoErr Order) (s s' : SFState n) (i : Fin n)
    (hstep : SFStep r s (SFAct.enter i) = some s')
    (hOne : OneLeader s) (hRes : ResInv r s) (hPre : PreFlight s) : SFInv r s' := by
  cases hp : s.phases i <;> simp only [SFStep, hp] at hstep <;>
    try exact Option.noConfusion hstep
  by_cases hex : ∃ j, (s.phases j).isLeader = true
  · rw [if_pos hex] at hstep
    injection hstep with hs'
    subst hs'
    refine sfInv_update_passive r s i Phase.follower hOne hRes hPre rfl rfl
      (fun o h => Phase.noConfusion h) (fun res h => Phase.noConfusion h)
      (fun h => Phase.noConfusion h) (fun h => Phase.noConfusion h)
      (fun res h => Phase.noConfusion h) ?_
    rw [hp]
    rfl
  · rw [if_neg hex] at hstep
    injection hstep with hs'
    subst hs'
    obtain ⟨hResC, hResS, hResP, hResF⟩ := hRes
    obtain ⟨hFin, hNoL, hLIF, hLSet, hLPub⟩ := hPre
    have hNoLall : ∀ j, (s.phases j).isLeader = false := by
      intro j
      cases h : (s.phases j).isLeader
      · rfl
      · exact absurd ⟨j, h⟩ hex
    obtain ⟨hF0, hC0⟩ := hNoL hNoLall
    refine ⟨?_, ⟨hResC, ?_, ?_, ?_⟩, Or.inl ⟨?_, ?_, ?_, ?_, ?_⟩⟩
    · intro j k hj hk
      simp only [Function.update_apply] at hj hk
      by_cases hji : j = i
      · by_cases hki : k = i
        · rw [hji, hki]
        · rw [if_neg hki] at hk
          rw [hNoLall k] at hk
          exact Bool.noConfusion hk
      · rw [if_neg hji] at hj
        rw [hNoLall j] at hj
        exact Bool.noConfusion hj
    · intro j o hj
      simp only [Function.update_apply] at hj
      split at hj
      · exact Phase.noConfusion hj
      · exact hResS j o hj
    · intro j res hj
      simp only [Function.update_apply] at hj
      split at hj
      · exact Phase.noConfusion hj
      · exact hResP j res hj
    · intro j res hj
      simp only [Function.update_apply] at hj
      split at hj
      · exact Phase.noConfusion hj
      · exact hResF j res hj
    · intro j
      simp only [Function.update_apply]
      split
      · rfl
      · exact hFin j
    · intro h
      exfalso
      have := h i
      simp only [Function.update_same] at this
      exact Bool.noConfusion this
    · intro j hj
      exact ⟨hF0, hC0⟩
    · intro j o hj
      simp only [Function.update_apply] at hj
      split at hj
      · exact Phase.noConfusion hj
      · exfalso
        have := hNoLall j
        rw [hj] at this
        exact Bool.noConfusion this
    · intro j res hj
      simp only [Function.update_apply] at hj
      split at hj
      · exact Phase.noConfusion hj
      · exfalso
        have := hNoLall j
        rw [hj] at this
        exact Bool.noConfusion this

theorem sfInv_inner {n : Nat} (r : Except RepoErr Order) (s s' : SFState n) (i : Fin n)
    (hstep : SFStep r s (SFAct.inner i) = some s')
    (hOne : OneLeader s) (hRes : ResInv r s) (hPre : PreFlight s) : SFInv r s' := by
  obtain ⟨hResC, hResS, hResP, hResF⟩ := hRes
  obtain ⟨hFin, hNoL, hLIF, hLSet, hLPub⟩ := hPre
  cases hp : s.phases i <;> simp only [SFStep, hp] at hstep <;>
    try exact Option.noConfusion hstep
  obtain ⟨hF0, hC0⟩ := hLIF i (Or.inl hp)
  have hiL : (s.phases i).isLeader = true := by rw [hp]; rfl
  rw [hC0] at hstep
  injection hstep with hs'
  subst hs'
  have hgoal : SFInv r { s with phases := Function.update s.phases i Phase.leaderFetch } := by
    refine ⟨?_, ⟨hResC, ?_, ?_, ?_⟩, Or.inl ⟨?_, ?_, ?_, ?_, ?_⟩⟩
    · exact oneLeader_update_of_leader s _ i Phase.leaderFetch rfl hOne hiL
    · intro j o hj
      simp only [Function.update_apply] at hj
      split at hj
      · exact Phase.noConfusion hj
      · exact hResS j o hj
    · intro j res hj
      simp only [Function.update_apply] at hj
      split at hj
      · exact Phase.noConfusion hj
      · exact hResP j res hj
    · intro j res hj
      simp only [Function.update_apply] at hj
      split at hj
      · exact Phase.noConfusion hj
      · exact hResF j res hj
    · intro j
      simp only [Function.update_apply]
      split
      · rfl
      · exact hFin j
    · intro h
      exfalso
      have := h i
      simp only [Function.update_same] at this
      exact Bool.noConfusion this
    · intro j hj
      exact ⟨hF0, hC0⟩
    · intro j o hj
      simp only [Function.update_apply] at hj
      by_cases hji : j = i
      · rw [if_pos hji] at hj
        exact Phase.noConfusion hj
      · rw [if_neg hji] at hj
        exfalso
        have hl := no_other_leader s i j hOne hiL hji
        rw [hj] at hl
        exact Bool.noConfusion hl
    · intro j res hj
      simp only [Function.update_apply] at hj
      by_cases hji : j = i
      · rw [if_pos hji] at hj
        exact Phase.noConfusion hj
      · rw [if_neg hji] at hj
        exfalso
        have hl := no_other_leader s i j hOne hiL hji
        rw [hj] at hl
        exact Bool.noConfusion hl
  rwa [hC0] at hgoal

theorem sfInv_fetch {n : Nat} (r : Except RepoErr Order) (s s' : SFState n) (i : Fin n)
    (hstep : SFStep r s (SFAct.fetch i) = some s')
    (hOne : OneLeader s) (hRes : ResInv r s) (hPre : PreFlight s) : SFInv r s' := by
  obtain ⟨hResC, hResS, hResP, hResF⟩ := hRes
  obtain ⟨hFin, hNoL, hLIF, hLSet, hLPub⟩ := hPre
  cases hp : s.phases i <;> simp only [SFStep, hp] at hstep <;>
    try exact Option.noConfusion hstep
  obtain ⟨hF0, hC0⟩ := hLIF i (Or.inr hp)
  have hiL : (s.phases i).isLeader = true := by rw [hp]; rfl
  cases hr : r <;> rw [hr] at hstep <;> injection hstep with hs' <;> subst hs'
  case ok o =>
    rw [← hr]
    refine ⟨?_, ⟨hResC, ?_, ?_, ?_⟩, Or.inl ⟨?_, ?_, ?_, ?_, ?_⟩⟩
    · exact oneLeader_update_of_leader s _ i (Phase.leaderSet o) rfl hOne hiL
    · intro j o' hj
      simp only [Function.update_apply] at hj
      split at hj
      · injection hj with ho
        rw [hr, ho]
      · exact hResS j o' hj
    · intro j res hj
      simp only [Function.update_apply] at hj
      split at hj
      · exact Phase.noConfusion hj
      · exact hResP j res hj
    · intro j res hj
      simp only [Function.update_apply] at hj
      split at hj
      · exact Phase.noConfusion hj
      · exact hResF j res hj
    · intro j
      simp only [Function.update_apply]
      split
      · rfl
      · exact hFin j
    · intro h
      exfalso
      have := h i
      simp only [Function.update_same] at this
      exact Bool.noConfusion this
    · intro j hj
      simp only [Function.update_apply] at hj
      by_cases hji : j = i
      · rw [if_pos hji] at hj
        rcases hj with hj | hj <;> exact Phase.noConfusion hj
      · rw [if_neg hji] at hj
        exfalso
        have hl := no_other_leader s i j hOne hiL hji
        rcases hj with hj | hj <;> rw [hj] at hl <;> exact Bool.noConfusion hl
    · intro j o' hj
      simp only [Function.update_apply] at hj
      by_cases hji : j = i
      · rw [if_pos hji] at hj
        exact ⟨by rw [hF0], hC0⟩
      · rw [if_neg hji] at hj
        exfalso
        have hl := no_other_leader s i j hOne hiL hji
        rw [hj] at hl
        exact Bool.noConfusion hl
    · intro j res hj
      simp only [Function.update_apply] at hj
      by_cases hji : j = i
      · rw [if_pos hji] at hj
        exact Phase.noConfusion hj
      · rw [if_neg hji] at hj
        exfalso
        have hl := no_other_leader s i j hOne hiL hji
        rw [hj] at hl
        exact Bool.noConfusion hl
  case error e =>
    nth_rewrite 1 [← hr]
    refine ⟨?_, ⟨hResC, ?_, ?_, ?_⟩, Or.inl ⟨?_, ?_, ?_, ?_, ?_⟩⟩
    · exact oneLeader_update_of_leader s _ i (Phase.leaderPublish (Except.error e)) rfl hOne hiL
    · intro j o' hj
      simp only [Function.update_apply] at hj
      split at hj
      · exact Phase.noConfusion hj
      · exact hResS j o' hj
    · intro j res hj
      simp only [Function.update_apply] at hj
      split at hj
      · injection hj with hres
        rw [← hres, hr]
      · exact hResP j res hj
    · intro j res hj
      simp only [Function.update_apply] at hj
      split at hj
      · exact Phase.noConfusion hj
      · exact hResF j res hj
    · intro j
      simp only [Function.update_apply]
      split
      · rfl
      · exact hFin j
    · intro h
      exfalso
      have := h i
      simp only [Function.update_same] at this
      exact Bool.noConfusion this
    · intro j hj
      simp only [Function.update_apply] at hj
      by_cases hji : j = i
      · rw [if_pos hji] at hj
        rcases hj with hj | hj <;> exact Phase.noConfusion hj
      · rw [if_neg hji] at hj
        exfalso
        have hl := no_other_leader s i j hOne hiL hji
        rcases hj with hj | hj <;> rw [hj] at hl <;> exact Bool.noConfusion hl
    · intro j o' hj
      simp only [Function.update_apply] at hj
      by_cases hji : j = i
      · rw [if_pos hji] at hj
        exact Phase.noConfusion hj
      · rw [if_neg hji] at hj
        exfalso
        have hl := no_other_leader s i j hOne hiL hji
        rw [hj] at hl
        exact Bool.noConfusion hl
    · intro j res hj
      simp only [Function.update_apply] at hj
      by_cases hji : j = i
      · rw [if_pos hji] at hj
        injection hj with hres
        refine ⟨by rw [hF0], ?_, fun e' _ => hC0⟩
        intro o hok
        rw [← hres] at hok
        exact Except.noConfusion hok
      · rw [if_neg hji] at hj
        exfalso
        have hl := no_other_leader s i j hOne hiL hji
        rw [hj] at hl
        exact Bool.noConfusion hl

theorem sfInv_setC {n : Nat} (r : Except RepoErr Order) (s s' : SFState n) (i : Fin n)
    (hstep : SFStep r s (SFAct.setC i) = some s')
    (hOne : OneLeader s) (hRes : ResInv r s) (hPre : PreFlight s) : SFInv r s' := by
  obtain ⟨hResC, hResS, hResP, hResF⟩ := hRes
  obtain ⟨hFin, hNoL, hLIF, hLSet, hLPub⟩ := hPre
  cases hp : s.phases i <;> simp only [SFStep, hp] at hstep <;>
    try exact Option.noConfusion hstep
  case leaderSet o =>
  obtain ⟨hF1, hCn⟩ := hLSet i o hp
  have hrok : r = Except.ok o := hResS i o hp
  have hiL : (s.phases i).isLeader = true := by rw [hp]; rfl
  injection hstep with hs'
  subst hs'
  refine ⟨?_, ⟨?_, ?_, ?_, ?_⟩, Or.inl ⟨?_, ?_, ?_, ?_, ?_⟩⟩
  · exact oneLeader_update_of_leader s _ i (Phase.leaderPublish (Except.ok o)) rfl hOne hiL
  · intro o' hco
    injection hco with ho
    rw [hrok, ho]
  · intro j o' hj
    simp only [Function.update_apply] at hj
    split at hj
    · exact Phase.noConfusion hj
    · exact hResS j o' hj
  · intro j res hj
    simp only [Function.update_apply] at hj
    split at hj
    · injection hj with hres
      rw [← hres, hrok]
    · exact hResP j res hj
  · intro j res hj
    simp only [Function.update_apply] at hj
    split at hj
    · exact Phase.noConfusion hj
    · exact hResF j res hj
  · intro j
    simp only [Function.update_apply]
    split
    · rfl
    · exact hFin j
  · intro h
    exfalso
    have := h i
    simp only [Function.update_same] at this
    exact Bool.noConfusion this
  · intro j hj
    simp only [Function.update_apply] at hj
    by_cases hji : j = i
    · rw [if_pos hji] at hj
      rcases hj with hj | hj <;> exact Phase.noConfusion hj
    · rw [if_neg hji] at hj
      exfalso
      have hl := no_other_leader s i j hOne hiL hji
      rcases hj with hj | hj <;> rw [hj] at hl <;> exact Bool.noConfusion hl
  · intro j o' hj
    simp only [Function.update_apply] at hj
    by_cases hji : j = i
    · rw [if_pos hji] at hj
      exact Phase.noConfusion hj
    · rw [if_neg hji] at hj
      exfalso
      have hl := no_other_leader s i j hOne hiL hji
      rw [hj] at hl
      exact Bool.noConfusion hl
  · intro j res hj
    simp only [Function.update_apply] at hj
    by_cases hji : j = i
    · rw [if_pos hji] at hj
      injection hj with hres
      refine ⟨hF1, ?_, ?_⟩
      · intro o' hok
        rw [← hres] at hok
        injection hok with ho'
        rw [← ho']
      · intro e herr
        rw [← hres] at herr
        exact Except.noConfusion herr
    · rw [if_neg hji] at hj
      exfalso
      have hl := no_other_leader s i j hOne hiL hji
      rw [hj] at hl
      exact Bool.noConfusion hl

theorem sfInv_publish {n : Nat} (r : Except RepoErr Order) (s s' : SFState n) (i : Fin n)
    (hstep : SFStep r s (SFAct.publish i) = some s')
    (hpub : ∀ j, s.phases j ≠ Phase.start ∧ s.phases j ≠ Phase.waitDo)
    (hOne : OneLeader s) (hRes : ResInv r s) (hPre : PreFlight s) : SFInv r s' := by
  obtain ⟨hResC, hResS, hResP, hResF⟩ := hRes
  obtain ⟨hFin, hNoL, hLIF, hLSet, hLPub⟩ := hPre
  cases hp : s.phases i <;> simp only [SFStep, hp] at hstep <;>
    try exact Option.noConfusion hstep
  case leaderPublish res =>
  injection hstep with hs'
  subst hs'
  have hiL : (s.phases i).isLeader = true := by rw [hp]; rfl
  obtain ⟨hF1, hCok, hCerr⟩ := hLPub i res hp
  have hres : res = r := hResP i res hp
  have hallfin : ∀ j, (if j = i ∨ s.phases j = Phase.follower then Phase.finished res
      else s.phases j) = Phase.finished res := by
    intro j
    by_cases hc : j = i ∨ s.phases j = Phase.follower
    · rw [if_pos hc]
    · exfalso
      have hji : j ≠ i := fun h => hc (Or.inl h)
      have hnf : s.phases j ≠ Phase.follower := fun h => hc (Or.inr h)
      have hl := no_other_leader s i j hOne hiL hji
      have hfinj := hFin j
      cases hq : s.phases j
      · exact (hpub j).1 hq
      · exact (hpub j).2 hq
      · rw [hq] at hl
        exact Bool.noConfusion hl
      · rw [hq] at hl
        exact Bool.noConfusion hl
      · rw [hq] at hl
        exact Bool.noConfusion hl
      · rw [hq] at hl
        exact Bool.noConfusion hl
      · exact hnf hq
      · rw [hq] at hfinj
        exact Bool.noConfusion hfinj
  refine ⟨?_, ⟨hResC, ?_, ?_, ?_⟩, Or.inr ⟨?_, hF1, ?_, ?_⟩⟩
  · intro j k hj hk
    exfalso
    simp only [hallfin j] at hj
    exact Bool.noConfusion hj
  · intro j o hj
    simp only [hallfin j] at hj
    exact Phase.noConfusion hj
  · intro j res' hj
    simp only [hallfin j] at hj
    exact Phase.noConfusion hj
  · intro j res' hj
    simp only [hallfin j] at hj
    injection hj with h2
    rw [← h2]
    exact hres
  · intro j
    simp only [hallfin j]
    rfl
  · intro o hro
    exact hCok o (hres.trans hro)
  · intro e hre
    exact hCerr e (hres.trans hre)

theorem sfInv_step {n : Nat} (r : Except RepoErr Order) (s s' : SFState n) (a : SFAct n)
    (hstep : SFStep r s a = some s')
    (hchk : ∀ i, a = SFAct.check i → s.cache = none)
    (hpub : ∀ i, a = SFAct.publish i →
      ∀ j, s.phases j ≠ Phase.start ∧ s.phases j ≠ Phase.waitDo)
    (hinv : SFInv r s) : SFInv r s' := by
  obtain ⟨hOne, hRes, hPP⟩ := hinv
  rcases hPP with hPre | hPost
  swap
  · rw [sfstep_none_of_fin r s a hPost.1] at hstep
    exact Option.noConfusion hstep
  cases a with
  | check i => exact sfInv_check r s s' i hstep (hchk i rfl) hOne hRes hPre
  | enter i => exact sfInv_enter r s s' i hstep hOne hRes hPre
  | inner i => exact sfInv_inner r s s' i hstep hOne hRes hPre
  | fetch i => exact sfInv_fetch r s s' i hstep hOne hRes hPre
  | setC i => exact sfInv_setC r s s' i hstep hOne hRes hPre
  | publish i => exact sfInv_publish r s s' i hstep (hpub i rfl) hOne hRes hPre

theorem sfInv_init (n : Nat) (r : Except RepoErr Order) : SFInv r (SFInit n) := by
  refine ⟨?_, ⟨?_, ?_, ?_, ?_⟩, Or.inl ⟨?_, ?_, ?_, ?_, ?_⟩⟩
  · intro i j hi hj
    exact Bool.noConfusion hi
  · intro o h
    exact Option.noConfusion h
  · intro i o h
    exact Phase.noConfusion h
  · intro i res h
    exact Phase.noConfusion h
  · intro i res h
    exact Phase.noConfusion h
  · intro i
    rfl
  · intro h
    exact ⟨rfl, rfl⟩
  · intro i h
    rcases h with h | h <;> exact Phase.noConfusion h
  · intro i o h
    exact Phase.noConfusion h
  · intro i res h
    exact Phase.noConfusion h

theorem sfRun_inv {n : Nat} (r : Except RepoErr Order) (acts : List (SFAct n)) :
    ∀ (s st : SFState n), sfRun r s acts = some st → goodSched r s acts = true →
      SFInv r s → SFInv r st := by
  induction acts with
  | nil =>
    intro s st hrun hg hinv
    injection hrun with h
    rwa [← h]
  | cons a as ih =>
    intro s st hrun hg hinv
    rw [sfRun] at hrun
    rw [goodSched, Bool.and_eq_true] at hg
    obtain ⟨hg1, hg2⟩ := hg
    cases hs : SFStep r s a with
    | none =>
      rw [hs] at hrun
      exact Option.noConfusion hrun
    | some s1 =>
      rw [hs] at hrun hg2
      have hchk : ∀ i, a = SFAct.check i → s.cache = none := by
        intro i ha
        rw [ha] at hg1
        rw [actGuard] at hg1
        exact of_decide_eq_true hg1
      have hpub : ∀ i, a = SFAct.publish i →
          ∀ j, s.phases j ≠ Phase.start ∧ s.phases j ≠ Phase.waitDo := by
        intro i ha
        rw [ha] at hg1
        rw [actGuard] at hg1
        exact of_decide_eq_true hg1
      exact ih s1 st hrun hg2 (sfInv_step r s s1 a hs hchk hpub hinv)

/-- A step by a caller of `id₁` never touches `id₂`'s callers or its fetch
counter: only the shared cache and `id₁`'s own components change. -/
theorem sf2_inl_frame {n₁ n₂ : Nat} (id₁ id₂ : String) (r₁ r₂ : Except RepoErr Order)
    (q t : SF2State n₁ n₂) (a : SFAct n₁)
    (hstep : SF2Step id₁ id₂ r₁ r₂ q (Sum.inl a) = some t) :
    t.phases2 = q.phases2 ∧ t.fetches2 = q.fetches2 := by
  cases a with
  | check i =>
    cases hp : q.phases1 i <;> simp only [SF2Step, hp] at hstep <;>
      try exact Option.noConfusion hstep
    cases hc : (q.cache.get id₁).1 <;> rw [hc] at hstep <;>
      injection hstep with ht <;> subst ht <;> exact ⟨rfl, rfl⟩
  | enter i =>
    cases hp : q.phases1 i <;> simp only [SF2Step, hp] at hstep <;>
      try exact Option.noConfusion hstep
    by_cases hex : ∃ j, (q.phases1 j).isLeader = true
    · rw [if_pos hex] at hstep
      injection hstep with ht
      subst ht
      exact ⟨rfl, rfl⟩
    · rw [if_neg hex] at hstep
      injection hstep with ht
      subst ht
      exact ⟨rfl, rfl⟩
  | inner i =>
    cases hp : q.phases1 i <;> simp only [SF2Step, hp] at hstep <;>
      try exact Option.noConfusion hstep
    cases hc : (q.cache.get id₁).1 <;> rw [hc] at hstep <;>
      injection hstep with ht <;> subst ht <;> exact ⟨rfl, rfl⟩
  | fetch i =>
    cases hp : q.phases1 i <;> simp only [SF2Step, hp] at hstep <;>
      try exact Option.noConfusion hstep
    cases hr : r₁ <;> rw [hr] at hstep <;>
      injection hstep with ht <;> subst ht <;> exact ⟨rfl, rfl⟩
  | setC i =>
    cases hp : q.phases1 i <;> simp only [SF2Step, hp] at hstep <;>
      try exact Option.noConfusion hstep
    injection hstep with ht
    subst ht
    exact ⟨rfl, rfl⟩
  | publish i =>
    cases hp : q.phases1 i <;> simp only [SF2Step, hp] at hstep <;>
      try exact Option.noConfusion hstep
    injection hstep with ht
    subst ht
    exact ⟨rfl, rfl⟩

/-- A step by a caller of `id₂` never touches `id₁`'s callers or its fetch
counter. -/
theorem sf2_inr_frame {n₁ n₂ : Nat} (id₁ id₂ : String) (r₁ r₂ : Except RepoErr Order)
    (q t : SF2State n₁ n₂) (b : SFAct n₂)
    (hstep : SF2Step id₁ id₂ r₁ r₂ q (Sum.inr b) = some t) :
    t.phases1 = q.phases1 ∧ t.fetches1 = q.fetches1 := by
  cases b with
  | check i =>
    cases hp : q.phases2 i <;> simp only [SF2Step, hp] at hstep <;>
      try exact Option.noConfusion hstep
    cases hc : (q.cache.get id₂).1 <;> rw [hc] at hstep <;>
      injection hstep with ht <;> subst ht <;> exact ⟨rfl, rfl⟩
  | enter i =>
    cases hp : q.phases2 i <;> simp only [SF2Step, hp] at hstep <;>
      try exact Option.noConfusion hstep
    by_cases hex : ∃ j, (q.phases2 j).isLeader = true
    · rw [if_pos hex] at hstep
      injection hstep with ht
      subst ht
      exact ⟨rfl, rfl⟩
    · rw [if_neg hex] at hstep
      injection hstep with ht
      subst ht
      exact ⟨rfl, rfl⟩
  | inner i =>
    cases hp : q.phases2 i <;> simp only [SF2Step, hp] at hstep <;>
      try exact Option.noConfusion hstep
    cases hc : (q.cache.get id₂).1 <;> rw [hc] at hstep <;>
      injection hstep with ht <;> subst ht <;> exact ⟨rfl, rfl⟩
  | fetch i =>
    cases hp : q.phases2 i <;> simp only [SF2Step, hp] at hstep <;>
      try exact Option.noConfusion hstep
    cases hr : r₂ <;> rw [hr] at hstep <;>
      injection hstep with ht <;> subst ht <;> exact ⟨rfl, rfl⟩
  | setC i =>
    cases hp : q.phases2 i <;> simp only [SF2Step, hp] at hstep <;>
      try exact Option.noConfusion hstep
    injection hstep with ht
    subst ht
    exact ⟨rfl, rfl⟩
  | publish i =>
    cases hp : q.phases2 i <;> simp only [SF2Step, hp] at hstep <;>
      try exact Option.noConfusion hstep
    injection hstep with ht
    subst ht
    exact ⟨rfl, rfl⟩

/-- Whether a caller of `id₂` has a step depends only on `id₂`'s callers'
phases: in particular, any step (of `id₁` or anyone) that leaves
`phases2` unchanged — even one that rewrites or evicts cache entries —
neither enables nor disables any `id₂` step. -/
theorem sf2_enabled2_of_phases2 {n₁ n₂ : Nat} (id₁ id₂ : String)
    (r₁ r₂ : Except RepoErr Order) (s t : SF2State n₁ n₂)
    (h : t.phases2 = s.phases2) (b : SFAct n₂) :
    (SF2Step id₁ id₂ r₁ r₂ t (Sum.inr b)).isSome
      = (SF2Step id₁ id₂ r₁ r₂ s (Sum.inr b)).isSome := by
  cases b with
  | check i =>
    simp only [SF2Step, h]
    cases hp : s.phases2 i <;>
      first
        | rfl
        | (cases (t.cache.get id₂).1 <;> cases (s.cache.get id₂).1 <;> rfl)
  | enter i =>
    simp only [SF2Step, h]
    by_cases hex : ∃ j, (s.phases2 j).isLeader = true
    · cases hp : s.phases2 i <;> first | rfl | (simp only [if_pos hex]; rfl)
    · cases hp : s.phases2 i <;> first | rfl | (simp only [if_neg hex]; rfl)
  | inner i =>
    simp only [SF2Step, h]
    cases hp : s.phases2 i <;>
      first
        | rfl
        | (cases (t.cache.get id₂).1 <;> cases (s.cache.get id₂).1 <;> rfl)
  | fetch i =>
    simp only [SF2Step, h]
    cases hp : s.phases2 i <;> first | rfl | (cases r₂ <;> rfl)
  | setC i =>
    simp only [SF2Step, h]
    cases hp : s.phases2 i <;> rfl
  | publish i =>
    simp only [SF2Step, h]
    cases hp : s.phases2 i <;> rfl

/-- Whether a caller of `id₁` has a step depends only on `id₁`'s callers'
phases. -/
theorem sf2_enabled1_of_phases1 {n₁ n₂ : Nat} (id₁ id₂ : String)
    (r₁ r₂ : Except RepoErr Order) (s t : SF2State n₁ n₂)
    (h : t.phases1 = s.phases1) (a : SFAct n₁) :
    (SF2Step id₁ id₂ r₁ r₂ t (Sum.inl a)).isSome
      = (SF2Step id₁ id₂ r₁ r₂ s (Sum.inl a)).isSome := by
  cases a with
  | check i =>
    simp only [SF2Step, h]
    cases hp : s.phases1 i <;>
      first
        | rfl
        | (cases (t.cache.get id₁).1 <;> cases (s.cache.get id₁).1 <;> rfl)
  | enter i =>
    simp only [SF2Step, h]
    by_cases hex : ∃ j, (s.phases1 j).isLeader = true
    · cases hp : s.phases1 i <;> first | rfl | (simp only [if_pos hex]; rfl)
    · cases hp : s.phases1 i <;> first | rfl | (simp only [if_neg hex]; rfl)
  | inner i =>
    simp only [SF2Step, h]
    cases hp : s.phases1 i <;>
      first
        | rfl
        | (cases (t.cache.get id₁).1 <;> cases (s.cache.get id₁).1 <;> rfl)
  | fetch i =>
    simp only [SF2Step, h]
    cases hp : s.phases1 i <;> first | rfl | (cases r₁ <;> rfl)
  | setC i =>
    simp only [SF2Step, h]
    cases hp : s.phases1 i <;> rfl
  | publish i =>
    simp only [SF2Step, h]
    cases hp : s.phases1 i <;> rfl

/-- C3: in the interleaved singleflight machine, for every schedule in
which the N callers of one identifier all miss the cache (every outer
check sees an absent entry) and miss simultaneously (every caller is past
its `Do` entry whenever a flight result is published), a completed run
issues exactly one backing fetch, every caller finishes with exactly the
repo result `r` (the same order or the same error), the leader has
populated the cache before the result fans out (the cache holds the
fetched order whenever `r` succeeded, and stays empty whenever it failed);
and, in the two-identifier composite over the program's one shared cache
(where a `Set` for one id may evict the other id's entry), a step by either
identifier's caller never changes the other identifier's callers, flight
progress or fetch count, and never enables or disables any of the other
identifier's steps — distinct identifiers proceed independently and never
block each other, the shared cache affecting at most a later hit/miss
outcome. -/
theorem sf_coalescing {n : Nat} (r : Except RepoErr Order) (acts : List (SFAct n))
    (st : SFState n) (hn : 1 ≤ n)
    (hrun : sfRun r (SFInit n) acts = some st)
    (hsched : goodSched r (SFInit n) acts = true)
    (hfin : ∀ i, (st.phases i).isFin = true) :
    st.fetches = 1 ∧
    (∀ i res, st.phases i = Phase.finished res → res = r) ∧
    (∀ o, r = Except.ok o → st.cache = some o) ∧
    (∀ e, r = Except.error e → st.cache = none) ∧
    (∀ {n₁ n₂ : Nat} (id₁ id₂ : String) (r₁ r₂ : Except RepoErr Order)
      (q t : SF2State n₁ n₂) (a : SFAct n₁),
      SF2Step id₁ id₂ r₁ r₂ q (Sum.inl a) = some t →
      t.phases2 = q.phases2 ∧ t.fetches2 = q.fetches2 ∧
      ∀ b : SFAct n₂, (SF2Step id₁ id₂ r₁ r₂ t (Sum.inr b)).isSome
        = (SF2Step id₁ id₂ r₁ r₂ q (Sum.inr b)).isSome) ∧
    (∀ {n₁ n₂ : Nat} (id₁ id₂ : String) (r₁ r₂ : Except RepoErr Order)
      (q t : SF2State n₁ n₂) (b : SFAct n₂),
      SF2Step id₁ id₂ r₁ r₂ q (Sum.inr b) = some t →
      t.phases1 = q.phases1 ∧ t.fetches1 = q.fetches1 ∧
      ∀ a : SFAct n₁, (SF2Step id₁ id₂ r₁ r₂ t (Sum.inl a)).isSome
        = (SF2Step id₁ id₂ r₁ r₂ q (Sum.inl a)).isSome) := by
  have hinv := sfRun_inv r acts (SFInit n) st hrun hsched (sfInv_init n r)
  obtain ⟨hOne, ⟨hResC, hResS, hResP, hResF⟩, hPP⟩ := hinv
  rcases hPP with hPre | hPost
  · exfalso
    have h0 := hPre.1 ⟨0, hn⟩
    rw [hfin ⟨0, hn⟩] at h0
    exact Bool.noConfusion h0
  · refine ⟨hPost.2.1, hResF, hPost.2.2.1, hPost.2.2.2, ?_, ?_⟩
    · intro n₁ n₂ id₁ id₂ r₁ r₂ q t a hstep
      obtain ⟨h1, h2⟩ := sf2_inl_frame id₁ id₂ r₁ r₂ q t a hstep
      exact ⟨h1, h2, fun b => sf2_enabled2_of_phases2 id₁ id₂ r₁ r₂ q t h1 b⟩
    · intro n₁ n₂ id₁ id₂ r₁ r₂ q t b hstep
      obtain ⟨h1, h2⟩ := sf2_inr_frame id₁ id₂ r₁ r₂ q t b hstep
      exact ⟨h1, h2, fun a => sf2_enabled1_of_phases1 id₁ id₂ r₁ r₂ q t h1 a⟩

/-- Concrete schedule: both callers check (miss), both enter the flight
(caller 0 leads, caller 1 follows), the leader re-checks, fetches, sets the
cache and publishes. -/
def sfActsW : List (SFAct 2) :=
  [SFAct.check 0, SFAct.check 1, SFAct.enter 0, SFAct.enter 1,
   SFAct.inner 0, SFAct.fetch 0, SFAct.setC 0, SFAct.publish 0]

/-- Witness for C3 at two callers and a successful fetch: the completed run
issued exactly one fetch and left the fetched order in the cache. -/
theorem sf_coalescing_witness :
    (sfRun (Except.ok sampleOrder) (SFInit 2) sfActsW).map SFState.fetches = some 1 ∧
    (sfRun (Except.ok sampleOrder) (SFInit 2) sfActsW).map SFState.cache
      = some (some sampleOrder) := by
  cases hr : sfRun (Except.ok sampleOrder) (SFInit 2) sfActsW with
  | none =>
    exfalso
    have hsome : (sfRun (Except.ok sampleOrder) (SFInit 2) sfActsW).isSome = true := by decide
    rw [hr] at hsome
    exact Bool.noConfusion hsome
  | some st =>
    have hfin : ∀ i, (st.phases i).isFin = true := by
      have hall : (sfRun (Except.ok sampleOrder) (SFInit 2) sfActsW).map
          (fun s => decide (∀ i, (s.phases i).isFin = true)) = some true := by decide
      rw [hr] at hall
      injection hall with h
      exact of_decide_eq_true h
    have h := sf_coalescing (Except.ok sampleOrder) sfActsW st (by decide) hr (by decide) hfin
    exact ⟨by simp [h.1], by simp [h.2.2.1 sampleOrder rfl]⟩

end WB
